import Mathlib

/-!
The header vutils.h: growable pointer list (VList), byte buffer (VString) and
sorted table (VSort)

A shallow embedding of the header-only C utilities in `src/src/vutils.h`.

Modelling conventions.

* A `void*` handle is its numeric value (`Ptr := Nat`), `NULL` is `0`; the test
  driver stores small integers cast to `void*` in exactly this way.
* `l->content` is `none` for a `NULL` pointer and `some c` for a heap block of
  `c.length` pointer slots.  The field `alloc` is kept separately, as in the
  struct.
* Every slot access is bounds-checked against the real block: an access outside
  the block, a `NULL` dereference or a failed `assert` is undefined behaviour or
  an abort in C and makes the operation return `none`.
* `size_t` arithmetic is done in `Nat`.  The one place where wrap-around of a
  `size_t` is reachable with small inputs (the counter of the shift loop of
  `vlistinsert` stepping below zero) is modelled explicitly.  `calloc` is
  assumed to succeed (its failure is an `assert` abort in the source).
* `memset` takes a byte count; slots are 8 bytes, little-endian (LP64).
* A parameter of type `unsigned` (32 bits) is reduced modulo `2^32` on entry,
  as the conversion at the call does; bytes of a `VString` block are numbers.
-/

namespace Vutils

/-- A pointer-sized handle (`void*`), as its numeric value. -/
abbrev Ptr := Nat

/-- The null handle. -/
def NULL : Ptr := 0

/-- Number of bytes of one `void*` slot, `sizeof(void*)`. -/
def PTRSIZE : Nat := 8

/-- The struct `VList`: `alloc`, `length` and the heap block `content`. -/
structure VList where
  alloc : Nat
  length : Nat
  content : Option (List Ptr)
deriving DecidableEq

/-- Read `content[i]`; `none` when the slot lies outside the block. -/
def rd (xs : List Ptr) (i : Nat) : Option Ptr := xs[i]?

/-- Write `content[i] = v`; `none` when the slot lies outside the block. -/
def wr (c : List Ptr) (i : Nat) (v : Ptr) : Option (List Ptr) :=
  if i < c.length then some (c.set i v) else none

/-- The call `memcpy(dst, src, n * sizeof(void*))` of `n` whole slots. -/
def memcpy (dst src : List Ptr) (n : Nat) : Option (List Ptr) :=
  if n ≤ src.length ∧ n ≤ dst.length then some (src.take n ++ dst.drop n) else none

/-- The call `memset(&c[start], 0, nbytes)`: `nbytes` BYTES are cleared, that is
`nbytes / 8` whole slots and the low-address `nbytes % 8` bytes of the next one. -/
def memset0 (c : List Ptr) (start nbytes : Nat) : Option (List Ptr) :=
  if start * PTRSIZE + nbytes ≤ c.length * PTRSIZE then
    some ((List.range c.length).map fun j =>
      let v := c.getD j 0
      if j < start then v
      else if j < start + nbytes / PTRSIZE then 0
      else if j = start + nbytes / PTRSIZE then v - v % 256 ^ (nbytes % PTRSIZE)
      else v)
  else none

/-- The value of `vlistnew()`: a zeroed struct. -/
def vlistnew : VList := { alloc := 0, length := 0, content := none }

/-- The macro `vlistlength`. -/
def vlistlength (l : VList) : Nat := l.length

/-- The loop `while(newsize < minalloc) newsize = (newsize * 2) + 1;` of
`vlistexpand`.  Each round adds at least one, so `minalloc` rounds are enough
(see `vlistexpandLoop_ge`). -/
def vlistexpandLoop (minalloc : Nat) : Nat → Nat → Nat
  | 0, newsize => newsize
  | fuel + 1, newsize =>
    if newsize < minalloc then vlistexpandLoop minalloc fuel (newsize * 2 + 1) else newsize

/-- The function `vlistexpand(l, minalloc)`. -/
def vlistexpand (l : VList) (minalloc : Nat) : Option VList :=
  let minalloc := if minalloc = 0 then minalloc + 1 else minalloc
  let newsize := vlistexpandLoop minalloc minalloc l.alloc
  if l.alloc ≥ newsize then some l
  else
    let newcontent := List.replicate newsize NULL
    match (if l.alloc > 0 ∧ l.length > 0 then l.content else none) with
    | some c =>
      (memcpy newcontent c l.length).map fun nc =>
        { l with content := some nc, alloc := newsize }
    | none => some { l with content := some newcontent, alloc := newsize }

/-- The function `vlistget(l, index)`. -/
def vlistget (l : VList) (index : Nat) : Option Ptr :=
  if l.length = 0 then some NULL
  else if index < l.length then l.content.bind fun c => rd c index
  else none

/-- The function `vlistset(l, index, elem)`: the previous value and the new list. -/
def vlistset (l : VList) (index : Nat) (elem : Ptr) : Option (Ptr × VList) := do
  let l ← vlistexpand l l.alloc
  let c ← l.content
  let c ← if index > l.length then memset0 c l.length (index - l.length) else some c
  let old ← rd c index
  let c ← wr c index elem
  some (old, { l with content := some c, length := l.length + 1 })

/-- The loop `for(i=l->length;i>=index;i--) l->content[i+1] = l->content[i];` of
`vlistinsert`, entered with counter `i`.  The counter is a `size_t`: stepping
below zero wraps it to `SIZE_MAX`, the test `i>=index` then holds and the body
reads `content[SIZE_MAX]`, which lies outside every block. -/
def vlistinsertLoop (index : Nat) : Nat → List Ptr → Option (List Ptr)
  | 0, c =>
    if 0 ≥ index then
      (rd c 0).bind fun v => (wr c 1 v).bind fun _ => none
    else some c
  | i + 1, c =>
    if i + 1 ≥ index then
      (rd c (i + 1)).bind fun v => (wr c (i + 1 + 1) v).bind fun c => vlistinsertLoop index i c
    else some c

/-- The function `vlistinsert(l, index, elem)`: the returned handle and the new list. -/
def vlistinsert (l : VList) (index : Nat) (elem : Ptr) : Option (Ptr × VList) := do
  let l ← vlistexpand l (index + 1)
  let c ← l.content
  let c ← if index > l.length then memset0 c l.length (index - l.length) else some c
  let c ← if l.length > 0 then vlistinsertLoop index l.length c else some c
  let c ← wr c index elem
  some (elem, { l with content := some c, length := l.length + 1 })

/-- The macro `vlistpush(l, elem)`. -/
def vlistpush (l : VList) (elem : Ptr) : Option (Ptr × VList) :=
  vlistinsert l (vlistlength l) elem

/-- The loop `for(i=index+1;i<l->length;i++) l->content[i-1] = l->content[i];` of
`vlistremove`, entered with counter `i`; `fuel` bounds the rounds and
`length - i` rounds are enough (see `vlistremoveLoop_eq`). -/
def vlistremoveLoop (length : Nat) : Nat → Nat → List Ptr → Option (List Ptr)
  | 0, i, c => if i < length then none else some c
  | fuel + 1, i, c =>
    if i < length then
      (rd c i).bind fun v => (wr c (i - 1) v).bind fun c => vlistremoveLoop length fuel (i + 1) c
    else some c

/-- The function `vlistremove(l, index)`: the removed handle and the new list. -/
def vlistremove (l : VList) (index : Nat) : Option (Ptr × VList) :=
  if l.length = 0 then some (NULL, l)
  else do
    let c ← l.content
    let elem ← rd c index
    let c ← vlistremoveLoop l.length (l.length - (index + 1)) (index + 1) c
    some (elem, { l with content := some c, length := l.length - 1 })

/-- The struct `VSort`: the backing list, the comparator `compare(key, &elem)` and
the key extractor `getkey(elem)`. -/
structure VSort where
  table : VList
  compare : Ptr → Ptr → Int
  getkey : Ptr → Ptr

/-- The loop `while(L < R)` of `vsortindex` on state `(L, R, found)`; it returns
`(L, found)`.  `R - L` drops every round, so `R - L` rounds are enough. -/
def vsortindexLoop (compare : Ptr → Ptr → Int) (key : Ptr) (table : List Ptr) :
    Nat → Nat → Nat → Int → Option (Nat × Int)
  | 0, L, R, found => if L < R then none else some (L, found)
  | fuel + 1, L, R, found =>
    if L < R then
      let m := (L + R) / 2
      (rd table m).bind fun e =>
        let diff := compare key e
        let found := if diff = 0 then 1 else found
        if diff > 0 then vsortindexLoop compare key table fuel (m + 1) R found
        else vsortindexLoop compare key table fuel L m found
    else some (L, found)

/-- The function `vsortindex(sl, key, &index)`: the pair `(found, index)`. -/
def vsortindex (sl : VSort) (key : Ptr) : Option (Int × Nat) :=
  let n := vlistlength sl.table
  if n = 0 then some (0, 0)
  else
    sl.table.content.bind fun table =>
      (vsortindexLoop sl.compare key table n 0 n 0).map fun r =>
        let L := if r.2 = 0 then r.1 + 1 else r.1
        (r.2, L)

/-- The function `vsortinsert(sl, elem)`: the displaced handle and the new table. -/
def vsortinsert (sl : VSort) (elem : Ptr) : Option (Ptr × VSort) := do
  let key := sl.getkey elem
  let r ← vsortindex sl key
  if r.1 = 0 then
    let t ← vlistinsert sl.table r.2 elem
    some (NULL, { sl with table := t.2 })
  else
    let prev ← vlistget sl.table r.2
    let t ← vlistset sl.table r.2 elem
    some (prev, { sl with table := t.2 })

/-- The function `vsortsearch(sl, key)`; it only reads `sl`. -/
def vsortsearch (sl : VSort) (key : Ptr) : Option Ptr := do
  let r ← vsortindex sl key
  if r.1 ≠ 0 then vlistget sl.table r.2 else some NULL

/-- The occupied prefix `content[0 .. length)` of a list. -/
def VList.elems (l : VList) : List Ptr := (l.content.getD []).take l.length

/-- Storage is consistent: the block has exactly `alloc` slots and
`length ≤ alloc`; a `NULL` block goes with `alloc = 0`. -/
def VList.WF (l : VList) : Prop :=
  l.length ≤ l.alloc ∧ (l.content.getD []).length = l.alloc

/-- The table is sorted ascending: for all `i < j < length`,
`compare(getkey(t[i]), &t[j]) <= 0`. -/
def SortedAsc (sl : VSort) : Prop :=
  sl.table.elems.Pairwise fun a b => sl.compare (sl.getkey a) b ≤ 0

instance (sl : VSort) : Decidable (SortedAsc sl) := by
  unfold SortedAsc; infer_instance

/-- The block covers the occupied prefix: `length` slots exist. -/
def VList.Backed (l : VList) : Prop := l.length ≤ (l.content.getD []).length

instance (l : VList) : Decidable l.Backed := by
  unfold VList.Backed; infer_instance

/-- The comparator contract: keys denote points `kval k` of a linear order and
`compare k e` is negative, zero or positive as `kval k` is below, equal to or
above the point of the key of `e`. -/
def KeyOrder {κ : Type} [LinearOrder κ] (compare : Ptr → Ptr → Int) (getkey : Ptr → Ptr)
    (kval : Ptr → κ) : Prop :=
  ∀ k e, (compare k e < 0 ↔ kval k < kval (getkey e)) ∧
    (compare k e = 0 ↔ kval k = kval (getkey e))

/-- A sample comparator: handles are integers and are their own keys. -/
def cmpInt (k e : Ptr) : Int := (k : Int) - (e : Int)

/-- A sample table over `cmpInt` with the identity key extractor. -/
def intTable (l : VList) : VSort := { table := l, compare := cmpInt, getkey := id }

/-- A sample comparator: the key of a handle is its value divided by ten. -/
def cmpTens (k e : Ptr) : Int := (k : Int) - ((e / 10 : Nat) : Int)

/-- A sample table over `cmpTens` with key extractor `e / 10`. -/
def tensTable (l : VList) : VSort :=
  { table := l, compare := cmpTens, getkey := fun e => e / 10 }

instance (l : VList) : Decidable l.WF := by
  unfold VList.WF; infer_instance

/-- The heap block of a list, empty for a `NULL` pointer. -/
def VList.block (l : VList) : List Ptr := l.content.getD []

/-- The loop `for(i=0;i < l->length;i++) vlistpush(clone,vlistget(l,i));` of
`vlistclone`, entered with counter `i`; `l->length - i` rounds are enough. -/
def vlistcloneLoop (l : VList) : Nat → Nat → VList → Option VList
  | 0, i, clone => if i < l.length then none else some clone
  | fuel + 1, i, clone =>
    if i < l.length then
      (vlistget l i).bind fun e =>
        (vlistpush clone e).bind fun r => vlistcloneLoop l fuel (i + 1) r.2
    else some clone

/-- The function `vlistclone(l)`. -/
def vlistclone (l : VList) : Option VList :=
  (vlistexpand vlistnew l.length).bind fun clone => vlistcloneLoop l l.length 0 clone

/-- Every slot in `[length, alloc)` holds the zero value. -/
def ZeroScratch (l : VList) : Prop :=
  ∀ j < l.alloc, l.length ≤ j → rd l.block j = some NULL

instance (l : VList) : Decidable (ZeroScratch l) := by
  unfold ZeroScratch; infer_instance

/-- The growth sequence of the spec: `cap, 2*cap+1, 2*(2*cap+1)+1, ...`;
`growSeq cap k` is its member number `k`. -/
def growSeq (cap : Nat) : Nat → Nat
  | 0 => cap
  | k + 1 => 2 * growSeq cap k + 1

/-! ### The byte buffer VString -/

/-- Number of values of the C type `unsigned` (32 bits). -/
def UINT_RANGE : Nat := 2 ^ 32

/-- The struct `VString`; `content` is `none` for `NULL` and otherwise the heap
block of bytes. -/
structure VString where
  nonextendible : Int
  alloc : Nat
  length : Nat
  content : Option (List Nat)
deriving DecidableEq

/-- The call `memcpy(&dst[off], src, n)` on bytes. -/
def memcpyAt (dst : List Nat) (off : Nat) (src : List Nat) (n : Nat) : Option (List Nat) :=
  if n ≤ src.length ∧ off + n ≤ dst.length then
    some (dst.take off ++ src.take n ++ dst.drop (off + n))
  else none

/-- The call `strlen(s)` on the readable block `s`: the position of the first
zero byte; `none` when the scan runs off the block. -/
def strlen : List Nat → Option Nat
  | [] => none
  | b :: rest => if b = 0 then some 0 else (strlen rest).map (· + 1)

/-- The value of `vsnew()`: a zeroed struct. -/
def vsnew : VString := { nonextendible := 0, alloc := 0, length := 0, content := none }

/-- The function `vsexpand(vs, minalloc)`.  Its loop has the text of the loop of
`vlistexpand`; the block has `newsize + 1` bytes. -/
def vsexpand (vs : VString) (minalloc : Nat) : Option VString :=
  if vs.nonextendible ≠ 0 then none
  else
    let newsize := vlistexpandLoop minalloc minalloc vs.alloc
    if vs.alloc ≥ newsize then some vs
    else
      let newcontent := List.replicate (newsize + 1) 0
      (match (if vs.alloc > 0 ∧ vs.length > 0 then vs.content else none) with
        | some cs => memcpyAt newcontent 0 cs vs.length
        | none => some newcontent).bind fun nc =>
      (wr nc vs.length 0).map fun nc => { vs with content := some nc, alloc := newsize }

/-- The function `vsappendn(vs, elem, n)`; `elem` is the readable block behind
the pointer.  `n` has type `unsigned`.  A `memcpy` of zero bytes touches
nothing, also through a `NULL` pointer. -/
def vsappendn (vs : VString) (elem : List Nat) (n : Nat) : Option VString := do
  let n := n % UINT_RANGE
  let n ← if n = 0 then (strlen elem).map (· % UINT_RANGE) else some n
  let need := vs.length + n
  let vs ← if vs.nonextendible ≠ 0 then (if vs.alloc ≥ need then some vs else none)
    else vsexpand vs need
  let ct ← if n = 0 then some vs.content
    else (vs.content.bind fun cs => memcpyAt cs vs.length elem n).map some
  let len := vs.length + n
  let ct ← if vs.nonextendible = 0 then (ct.bind fun cs => wr cs len 0).map some
    else some ct
  some { vs with content := ct, length := len }

/-- The macro `vscat(vs, s)`. -/
def vscat (vs : VString) (s : List Nat) : Option VString := vsappendn vs s 0

/-- The function `vsappend(vs, elem)`: the two-byte array `s` holds `(char)elem`
and a terminator. -/
def vsappend (vs : VString) (elem : Int) : Option VString :=
  vsappendn vs [(elem % 256).toNat, 0] 1

/-- The function `vssetcontents(vs, contents, alloc)`; `contents` is a non-null
block and `alloc` has type `unsigned`. -/
def vssetcontents (vs : VString) (contents : List Nat) (alloc : Nat) : VString :=
  let alloc := alloc % UINT_RANGE
  { vs with content := some contents, length := alloc, alloc := alloc, nonextendible := 1 }

/-- The function `vsextract(vs)`: the block handed to the caller and the buffer
left behind. -/
def vsextract (vs : VString) : List Nat × VString :=
  let vs := if vs.content = none then { vs with content := some [0], length := 0 } else vs
  let x := vs.content.getD []
  (x, { vs with content := none, length := 0, alloc := 0 })

/-- The bytes `content[0 .. length)` of a buffer. -/
def VString.bytes (vs : VString) : List Nat := (vs.content.getD []).take vs.length

/-- A valid buffer state: `length ≤ alloc`; the block, when there is one, has
`alloc + 1` bytes; without a block `alloc` is 0. -/
def VString.Valid (vs : VString) : Prop :=
  vs.length ≤ vs.alloc ∧
    match vs.content with
    | some cs => cs.length = vs.alloc + 1
    | none => vs.alloc = 0

/-! ## Slot access -/

theorem rd_eq (xs : List Ptr) (i : Nat) : rd xs i = xs[i]? := rfl

theorem rd_of_lt (xs : List Ptr) (i : Nat) (h : i < xs.length) : rd xs i = some xs[i] := by
  simp [rd, h]

theorem wr_of_lt (xs : List Ptr) (i : Nat) (v : Ptr) (h : i < xs.length) :
    wr xs i v = some (xs.set i v) := by
  simp [wr, h]

/-! ## vlistexpand -/

theorem vlistexpandLoop_mono (m : Nat) : ∀ fuel a, a ≤ vlistexpandLoop m fuel a := by
  intro fuel
  induction fuel with
  | zero => intro a; simp [vlistexpandLoop]
  | succ k ih =>
    intro a
    simp only [vlistexpandLoop]
    split
    · exact le_trans (by omega) (ih (a * 2 + 1))
    · exact le_refl a

/-- The fuel of the growth loop is enough: it ends because its test fails. -/
theorem vlistexpandLoop_ge (m : Nat) : ∀ fuel a, m ≤ a + fuel → m ≤ vlistexpandLoop m fuel a := by
  intro fuel
  induction fuel with
  | zero => intro a h; simpa [vlistexpandLoop] using h
  | succ k ih =>
    intro a h
    simp only [vlistexpandLoop]
    split
    · exact ih (a * 2 + 1) (by omega)
    · omega

/-- When the capacity already covers the request, `vlistexpand` changes nothing. -/
theorem vlistexpand_noop (l : VList) (m : Nat) (h : m ≤ l.alloc) (h0 : 0 < l.alloc) :
    vlistexpand l m = some l := by
  have key : ∀ q fuel, q ≤ l.alloc → vlistexpandLoop q fuel l.alloc = l.alloc := by
    intro q fuel hq
    cases fuel with
    | zero => rfl
    | succ k => simp [vlistexpandLoop, Nat.not_lt.mpr hq]
  unfold vlistexpand
  by_cases hm : m = 0
  · subst hm
    simp [key 1 _ h0]
  · simp [hm, key m _ h]

/-! ## vlistexpand on consistent storage -/

/-- On consistent storage `vlistexpand` always returns; it keeps the length and
the occupied slots, the new capacity is what the growth loop computes from
`max m 1`, storage stays consistent, and zero scratch slots stay zero. -/
theorem vlistexpand_spec (l : VList) (m : Nat) (hwf : l.WF) :
    ∃ l2, vlistexpand l m = some l2 ∧ l2.WF ∧ l2.length = l.length ∧
      l2.alloc = vlistexpandLoop (if m = 0 then 1 else m) (if m = 0 then 1 else m) l.alloc ∧
      l2.elems = l.elems ∧ (ZeroScratch l → ZeroScratch l2) := by
  obtain ⟨al, n, ct⟩ := l
  obtain ⟨hlen, hblk⟩ := hwf
  simp only at hlen hblk
  have hmono := vlistexpandLoop_mono (if m = 0 then 1 else m) (if m = 0 then 1 else m) al
  have hm : (if m = 0 then m + 1 else m) = (if m = 0 then 1 else m) := by
    split <;> simp_all
  by_cases hge : al ≥ vlistexpandLoop (if m = 0 then 1 else m) (if m = 0 then 1 else m) al
  · refine ⟨⟨al, n, ct⟩, ?_, ⟨hlen, hblk⟩, rfl, ?_, rfl, id⟩
    · simp only [vlistexpand, hm]
      rw [if_pos hge]
    · simp only
      omega
  · have hlt : al < vlistexpandLoop (if m = 0 then 1 else m) (if m = 0 then 1 else m) al := by
      omega
    generalize hN : vlistexpandLoop (if m = 0 then 1 else m) (if m = 0 then 1 else m) al = N
      at hge hlt hmono
    by_cases hcopy : al > 0 ∧ n > 0
    · cases ct with
      | none => simp at hblk; omega
      | some cs =>
        simp only [Option.getD_some] at hblk
        refine ⟨⟨N, n, some (cs.take n ++ (List.replicate N NULL).drop n)⟩, ?_, ?_, rfl, rfl,
          ?_, ?_⟩
        · simp only [vlistexpand, hm, hN, if_neg hge, if_pos hcopy, memcpy]
          rw [if_pos ⟨by omega, by simp; omega⟩]
          rfl
        · refine ⟨by simp only; omega, ?_⟩
          simp only [Option.getD_some, List.length_append, List.length_take, List.length_drop,
            List.length_replicate]
          omega
        · simp only [VList.elems, Option.getD_some]
          rw [List.take_append_of_le_length (by simp; omega), List.take_take]
          simp
        · intro _ j hj hnj
          simp only at hj hnj
          simp only [VList.block, Option.getD_some, rd_eq]
          rw [List.getElem?_append_right (by simp; omega)]
          simp only [List.length_take, List.drop_replicate]
          rw [List.getElem?_replicate_of_lt (by omega)]
    · have hn0 : n = 0 := by omega
      subst hn0
      refine ⟨⟨N, 0, some (List.replicate N NULL)⟩, ?_, ?_, rfl, rfl, ?_, ?_⟩
      · simp only [vlistexpand, hm, hN, if_neg hge, if_neg hcopy]
      · exact ⟨by simp, by simp⟩
      · simp [VList.elems]
      · intro _ j hj _
        simp only [VList.block, Option.getD_some, rd_eq]
        rw [List.getElem?_replicate_of_lt (by simpa using hj)]

/-! ## The growth sequence -/

theorem growSeq_shift (a : Nat) : ∀ k, growSeq (a * 2 + 1) k = growSeq a (k + 1) := by
  intro k
  induction k with
  | zero => simp [growSeq]; omega
  | succ k ih =>
    show 2 * growSeq (a * 2 + 1) k + 1 = 2 * growSeq a (k + 1) + 1
    rw [ih]

theorem growSeq_mono (a : Nat) : ∀ j k, j ≤ k → growSeq a j ≤ growSeq a k := by
  intro j k hjk
  induction k with
  | zero =>
    have : j = 0 := by omega
    subst this; exact le_refl _
  | succ k ih =>
    rcases Nat.lt_or_ge j (k + 1) with h | h
    · have := ih (by omega)
      simp only [growSeq]; omega
    · have : j = k + 1 := by omega
      subst this; exact le_refl _

/-- The growth loop stops at the first member of the sequence that reaches the
request. -/
theorem vlistexpandLoop_seq (m : Nat) : ∀ fuel a, ∃ k, vlistexpandLoop m fuel a = growSeq a k ∧
    ∀ j, j < k → growSeq a j < m := by
  intro fuel
  induction fuel with
  | zero =>
    intro a
    exact ⟨0, rfl, by intro j hj; omega⟩
  | succ f ih =>
    intro a
    by_cases ha : a < m
    · obtain ⟨k, hk, hlow⟩ := ih (a * 2 + 1)
      refine ⟨k + 1, ?_, ?_⟩
      · simp only [vlistexpandLoop, if_pos ha]
        rw [hk, growSeq_shift]
      · intro j hj
        cases j with
        | zero => simpa [growSeq] using ha
        | succ i =>
          rw [← growSeq_shift]
          exact hlow i (by omega)
    · exact ⟨0, by simp [vlistexpandLoop, ha, growSeq], by intro j hj; omega⟩

/-- C18. On consistent storage with capacity `c`, `vlistexpand(l, m)` returns
with the capacity set to the smallest member of `c, 2c+1, 2(2c+1)+1, ...` that
is at least `max(m, 1)`; the capacity does not decrease, and it stays `c` exactly
when `c ≥ max(m, 1)`. -/
theorem vlistexpand_capacity (l : VList) (m : Nat) (hwf : l.WF) :
    ∃ l2, vlistexpand l m = some l2 ∧
      (∃ k, l2.alloc = growSeq l.alloc k) ∧ max m 1 ≤ l2.alloc ∧
      (∀ j, max m 1 ≤ growSeq l.alloc j → l2.alloc ≤ growSeq l.alloc j) ∧
      l.alloc ≤ l2.alloc ∧ (l2.alloc = l.alloc ↔ max m 1 ≤ l.alloc) := by
  obtain ⟨l2, hrun, _, _, halloc, _, _⟩ := vlistexpand_spec l m hwf
  have hm : (if m = 0 then 1 else m) = max m 1 := by
    split <;> omega
  rw [hm] at halloc
  obtain ⟨k, hk, hlow⟩ := vlistexpandLoop_seq (max m 1) (max m 1) l.alloc
  have hge : max m 1 ≤ l2.alloc := by
    rw [halloc]; exact vlistexpandLoop_ge (max m 1) (max m 1) l.alloc (by omega)
  have hle : l.alloc ≤ l2.alloc := by
    rw [halloc]; exact vlistexpandLoop_mono (max m 1) (max m 1) l.alloc
  have hleast : ∀ j, max m 1 ≤ growSeq l.alloc j → l2.alloc ≤ growSeq l.alloc j := by
    intro j hj
    rw [halloc, hk]
    apply growSeq_mono
    by_contra hcon
    have := hlow j (by omega)
    omega
  refine ⟨l2, hrun, ⟨k, by rw [halloc, hk]⟩, hge, hleast, hle, ?_⟩
  constructor
  · intro h; rw [← h]; exact hge
  · intro h
    have := hleast 0 (by simpa [growSeq] using h)
    simp only [growSeq] at this
    omega

/-- Witness for C18: capacity 3 and request 10 give capacity 15. -/
theorem vlistexpand_capacity_witness :
    (VList.mk 3 2 (some [10, 20, 0])).WF ∧
    ∃ l2, vlistexpand (VList.mk 3 2 (some [10, 20, 0])) 10 = some l2 ∧
      (∃ k, l2.alloc = growSeq (VList.mk 3 2 (some [10, 20, 0])).alloc k) ∧
      max 10 1 ≤ l2.alloc ∧
      (∀ j, max 10 1 ≤ growSeq (VList.mk 3 2 (some [10, 20, 0])).alloc j →
        l2.alloc ≤ growSeq (VList.mk 3 2 (some [10, 20, 0])).alloc j) ∧
      (VList.mk 3 2 (some [10, 20, 0])).alloc ≤ l2.alloc ∧
      (l2.alloc = (VList.mk 3 2 (some [10, 20, 0])).alloc ↔
        max 10 1 ≤ (VList.mk 3 2 (some [10, 20, 0])).alloc) :=
  ⟨by decide, vlistexpand_capacity _ 10 (by decide)⟩

/-! ## Frame lemmas for the slot operations -/

theorem elems_get_block (l : VList) (j : Nat) (hj : j < l.length) :
    l.elems[j]? = l.block[j]? := by
  simp [VList.elems, VList.block, List.getElem?_take_of_lt hj]

theorem wr_some {xs r : List Ptr} {i : Nat} {v : Ptr} (h : wr xs i v = some r) :
    i < xs.length ∧ r = xs.set i v := by
  unfold wr at h
  split at h
  · exact ⟨by assumption, by cases h; rfl⟩
  · cases h

/-- The call `memset0` keeps the block size and every slot below `start`. -/
theorem memset0_some {cs r : List Ptr} {start nbytes : Nat}
    (h : memset0 cs start nbytes = some r) :
    r.length = cs.length ∧ ∀ j, j < start → r[j]? = cs[j]? := by
  unfold memset0 at h
  split at h
  · cases h
    refine ⟨by simp, ?_⟩
    intro j hj
    by_cases hjl : j < cs.length
    · simp [List.getElem?_map, List.getElem?_range hjl, hj, List.getD_eq_getElem?_getD,
        List.getElem?_eq_getElem hjl]
    · rw [List.getElem?_eq_none (by simp; omega), List.getElem?_eq_none (by omega)]
  · cases h

/-- A completed run of the shift loop of `vlistinsert` had `index ≥ 1`; it keeps
the block size, moves the slots `index .. i` one place up and leaves the others. -/
theorem vlistinsertLoop_some (index : Nat) : ∀ (i : Nat) (cs r : List Ptr),
    vlistinsertLoop index i cs = some r →
    r.length = cs.length ∧
      ∀ j, r[j]? = if index + 1 ≤ j ∧ j ≤ i + 1 then cs[j - 1]? else cs[j]? := by
  intro i
  induction i with
  | zero =>
    intro cs r h
    simp only [vlistinsertLoop] at h
    split at h
    · have hnone : ((rd cs 0).bind fun v => (wr cs 1 v).bind fun _ =>
          (none : Option (List Ptr))) = none := by
        cases rd cs 0 with
        | none => rfl
        | some v =>
          rw [Option.some_bind]
          cases wr cs 1 v <;> rfl
      rw [hnone] at h
      cases h
    · cases h
      refine ⟨rfl, ?_⟩
      intro j
      have : ¬ (index + 1 ≤ j ∧ j ≤ 0 + 1) := by omega
      rw [if_neg this]
  | succ k ih =>
    intro cs r h
    simp only [vlistinsertLoop] at h
    split at h
    · rename_i hik
      cases hrd : rd cs (k + 1) with
      | none => simp [hrd] at h
      | some v =>
        rw [hrd, Option.some_bind] at h
        cases hwr : wr cs (k + 1 + 1) v with
        | none => simp [hwr] at h
        | some cs2 =>
          rw [hwr, Option.some_bind] at h
          obtain ⟨hlt, rfl⟩ := wr_some hwr
          obtain ⟨hlen, hget⟩ := ih _ r h
          refine ⟨by simpa using hlen, ?_⟩
          intro j
          rw [hget j]
          rw [rd_eq] at hrd
          by_cases hj : index + 1 ≤ j ∧ j ≤ k + 1
          · have h2 : index + 1 ≤ j ∧ j ≤ k + 1 + 1 := by omega
            rw [if_pos hj, if_pos h2, List.getElem?_set_ne (by omega)]
          · rw [if_neg hj]
            by_cases hj2 : j = k + 1 + 1
            · subst hj2
              have h2 : index + 1 ≤ k + 1 + 1 ∧ k + 1 + 1 ≤ k + 1 + 1 := by omega
              rw [if_pos h2, List.getElem?_set_self hlt]
              simpa using hrd.symm
            · have h2 : ¬ (index + 1 ≤ j ∧ j ≤ k + 1 + 1) := by omega
              rw [if_neg h2, List.getElem?_set_ne (by omega)]
    · cases h
      refine ⟨rfl, ?_⟩
      intro j
      have : ¬ (index + 1 ≤ j ∧ j ≤ k + 1 + 1) := by omega
      rw [if_neg this]

/-- The steps of a completed `vlistinsert`. -/
theorem vlistinsert_inv {l l2 : VList} {i : Nat} {e r : Ptr}
    (h : vlistinsert l i e = some (r, l2)) :
    ∃ l1 cs c1 c2 c3, vlistexpand l (i + 1) = some l1 ∧ l1.content = some cs ∧
      (if i > l1.length then memset0 cs l1.length (i - l1.length) else some cs) = some c1 ∧
      (if l1.length > 0 then vlistinsertLoop i l1.length c1 else some c1) = some c2 ∧
      wr c2 i e = some c3 ∧ r = e ∧
      l2 = { l1 with content := some c3, length := l1.length + 1 } := by
  have heq : vlistinsert l i e = (vlistexpand l (i + 1)).bind fun l1 =>
      l1.content.bind fun cs =>
        (if i > l1.length then memset0 cs l1.length (i - l1.length) else some cs).bind fun c1 =>
          (if l1.length > 0 then vlistinsertLoop i l1.length c1 else some c1).bind fun c2 =>
            (wr c2 i e).bind fun c3 =>
              some (e, { l1 with content := some c3, length := l1.length + 1 }) := by
    unfold vlistinsert
    cases vlistexpand l (i + 1) with
    | none => rfl
    | some l1 =>
      cases hc : l1.content with
      | none => simp [hc]
      | some cs =>
        simp only [Option.bind_eq_bind, Option.some_bind, hc]
        split_ifs <;> rfl
  rw [heq] at h
  simp only [Option.bind_eq_some] at h
  obtain ⟨l1, h1, cs, h2, c1, h3, c2, h4, c3, h5, h6⟩ := h
  simp only [Option.some.injEq, Prod.mk.injEq] at h6
  exact ⟨l1, cs, c1, c2, c3, h1, h2, h3, h4, h5, h6.1.symm, h6.2.symm⟩

/-- The steps of a completed `vlistset`. -/
theorem vlistset_inv {l l2 : VList} {i : Nat} {e r : Ptr}
    (h : vlistset l i e = some (r, l2)) :
    ∃ l1 cs c1 c3, vlistexpand l l.alloc = some l1 ∧ l1.content = some cs ∧
      (if i > l1.length then memset0 cs l1.length (i - l1.length) else some cs) = some c1 ∧
      rd c1 i = some r ∧ wr c1 i e = some c3 ∧
      l2 = { l1 with content := some c3, length := l1.length + 1 } := by
  have heq : vlistset l i e = (vlistexpand l l.alloc).bind fun l1 =>
      l1.content.bind fun cs =>
        (if i > l1.length then memset0 cs l1.length (i - l1.length) else some cs).bind fun c1 =>
          (rd c1 i).bind fun old =>
            (wr c1 i e).bind fun c3 =>
              some (old, { l1 with content := some c3, length := l1.length + 1 }) := by
    unfold vlistset
    cases vlistexpand l l.alloc with
    | none => rfl
    | some l1 =>
      cases hc : l1.content with
      | none => simp [hc]
      | some cs =>
        simp only [Option.bind_eq_bind, Option.some_bind, hc]
        split_ifs <;> rfl
  rw [heq] at h
  simp only [Option.bind_eq_some] at h
  obtain ⟨l1, h1, cs, h2, c1, h3, old, h4, c3, h5, h6⟩ := h
  simp only [Option.some.injEq, Prod.mk.injEq] at h6
  obtain ⟨rfl, h7⟩ := h6
  exact ⟨l1, cs, c1, c3, h1, h2, h3, h4, h5, h7.symm⟩

/-- The optional gap fill of `vlistinsert` and `vlistset` keeps the block size
and the slots below `length`. -/
theorem gapfill_some {cs c1 : List Ptr} {i n : Nat}
    (h : (if i > n then memset0 cs n (i - n) else some cs) = some c1) :
    c1.length = cs.length ∧ ∀ j, j < n → c1[j]? = cs[j]? := by
  split at h
  · exact memset0_some h
  · cases h
    exact ⟨rfl, fun _ _ => rfl⟩

/-- C12. On consistent storage (`length ≤ alloc`), `vlistexpand(l, m)` returns,
keeps the length and leaves every slot in `[0, length)` as it was; and whenever
`vlistinsert` (hence `vlistpush`) or `vlistset` completes, the previously
occupied slots it does not shift or overwrite (those below the index, and for
`vlistset` all but the index) hold their old values. -/
theorem vlistexpand_keeps_slots (l : VList) (hwf : l.WF) :
    (∀ m, ∃ l2, vlistexpand l m = some l2 ∧ l2.length = l.length ∧
      ∀ j, j < l.length → rd l2.block j = rd l.block j) ∧
    (∀ i e r l2, vlistinsert l i e = some (r, l2) →
      ∀ j, j < l.length → j < i → rd l2.block j = rd l.block j) ∧
    (∀ i e r l2, vlistset l i e = some (r, l2) →
      ∀ j, j < l.length → j ≠ i → rd l2.block j = rd l.block j) := by
  have hexp : ∀ m l1, vlistexpand l m = some l1 →
      l1.length = l.length ∧ ∀ j, j < l.length → l1.block[j]? = l.block[j]? := by
    intro m l1 h1
    obtain ⟨l1b, hrun, _, hlen, _, helems, _⟩ := vlistexpand_spec l m hwf
    rw [hrun] at h1
    have hEq : l1b = l1 := Option.some.inj h1
    rw [hEq] at hlen helems
    refine ⟨hlen, ?_⟩
    intro j hj
    rw [← elems_get_block l j hj, ← elems_get_block l1 j (by omega), helems]
  refine ⟨?_, ?_, ?_⟩
  · intro m
    obtain ⟨l2, hrun, _, _, _, _, _⟩ := vlistexpand_spec l m hwf
    obtain ⟨hlen, hsl⟩ := hexp m l2 hrun
    exact ⟨l2, hrun, hlen, fun j hj => by simpa [rd_eq] using hsl j hj⟩
  · intro i e r l2 h j hj hji
    obtain ⟨l1, cs, c1, c2, c3, h1, h2, h3, h4, h5, _, rfl⟩ := vlistinsert_inv h
    obtain ⟨hlen, hsl⟩ := hexp _ l1 h1
    obtain ⟨_, hg⟩ := gapfill_some h3
    obtain ⟨_, rfl⟩ := wr_some h5
    have hloop : c2[j]? = c1[j]? := by
      split at h4
      · obtain ⟨_, hget⟩ := vlistinsertLoop_some i _ c1 c2 h4
        rw [hget j, if_neg (by omega)]
      · cases h4; rfl
    have hb : l1.block = cs := by simp [VList.block, h2]
    simp only [rd_eq, VList.block, Option.getD_some]
    rw [List.getElem?_set_ne (by omega), hloop, hg j (by omega), ← hb]
    exact hsl j hj
  · intro i e r l2 h j hj hji
    obtain ⟨l1, cs, c1, c3, h1, h2, h3, _, h5, rfl⟩ := vlistset_inv h
    obtain ⟨hlen, hsl⟩ := hexp _ l1 h1
    obtain ⟨_, hg⟩ := gapfill_some h3
    obtain ⟨_, rfl⟩ := wr_some h5
    have hb : l1.block = cs := by simp [VList.block, h2]
    simp only [rd_eq, VList.block, Option.getD_some]
    rw [List.getElem?_set_ne (by omega), hg j (by omega), ← hb]
    exact hsl j hj

/-- Witness for C12: the list `[10, 20]` with capacity 7, on which an insert at
index 1 and a set at index 1 complete. -/
theorem vlistexpand_keeps_slots_witness :
    (VList.mk 7 2 (some [10, 20, 0, 0, 0, 0, 0])).WF ∧
    vlistinsert (VList.mk 7 2 (some [10, 20, 0, 0, 0, 0, 0])) 1 15
      = some (15, VList.mk 7 3 (some [10, 15, 20, 0, 0, 0, 0])) ∧
    vlistset (VList.mk 7 2 (some [10, 20, 0, 0, 0, 0, 0])) 1 99
      = some (20, VList.mk 7 3 (some [10, 99, 0, 0, 0, 0, 0])) ∧
    ((∀ m, ∃ l2, vlistexpand (VList.mk 7 2 (some [10, 20, 0, 0, 0, 0, 0])) m = some l2 ∧
        l2.length = (VList.mk 7 2 (some [10, 20, 0, 0, 0, 0, 0])).length ∧
        ∀ j, j < (VList.mk 7 2 (some [10, 20, 0, 0, 0, 0, 0])).length →
          rd l2.block j = rd (VList.mk 7 2 (some [10, 20, 0, 0, 0, 0, 0])).block j) ∧
      (∀ i e r l2, vlistinsert (VList.mk 7 2 (some [10, 20, 0, 0, 0, 0, 0])) i e = some (r, l2) →
        ∀ j, j < (VList.mk 7 2 (some [10, 20, 0, 0, 0, 0, 0])).length → j < i →
          rd l2.block j = rd (VList.mk 7 2 (some [10, 20, 0, 0, 0, 0, 0])).block j) ∧
      (∀ i e r l2, vlistset (VList.mk 7 2 (some [10, 20, 0, 0, 0, 0, 0])) i e = some (r, l2) →
        ∀ j, j < (VList.mk 7 2 (some [10, 20, 0, 0, 0, 0, 0])).length → j ≠ i →
          rd l2.block j = rd (VList.mk 7 2 (some [10, 20, 0, 0, 0, 0, 0])).block j)) :=
  ⟨by decide, by decide, by decide, vlistexpand_keeps_slots _ (by decide)⟩

/-! ## vlistremove -/

/-- The shift loop of `vlistremove` never runs out of fuel; slot `j` of the
result holds the old slot `j + 1` for `i - 1 ≤ j < n - 1` and the old slot `j`
elsewhere. -/
theorem vlistremoveLoop_eq (n : Nat) : ∀ (fuel i : Nat) (cs : List Ptr),
    1 ≤ i → i ≤ n → n ≤ cs.length → fuel = n - i →
    ∃ r, vlistremoveLoop n fuel i cs = some r ∧ r.length = cs.length ∧
      ∀ j, r[j]? = if i - 1 ≤ j ∧ j + 1 < n then cs[j + 1]? else cs[j]? := by
  intro fuel
  induction fuel with
  | zero =>
    intro i cs _ hi _ hf
    refine ⟨cs, ?_, rfl, ?_⟩
    · simp [vlistremoveLoop]; omega
    · intro j
      have : ¬ (i - 1 ≤ j ∧ j + 1 < n) := by omega
      rw [if_neg this]
  | succ k ih =>
    intro i cs h1 hi hn hf
    have hlt : i < n := by omega
    have hic : i < cs.length := by omega
    obtain ⟨r, hr, hlen, hget⟩ := ih (i + 1) (cs.set (i - 1) cs[i]) (by omega) (by omega)
      (by simpa using hn) (by omega)
    refine ⟨r, ?_, by simpa using hlen, ?_⟩
    · simp only [vlistremoveLoop, if_pos hlt, rd_of_lt cs i hic, Option.some_bind,
        wr_of_lt cs (i - 1) _ (show i - 1 < cs.length by omega)]
      exact hr
    · intro j
      rw [hget j, Nat.add_sub_cancel]
      by_cases hj : i ≤ j ∧ j + 1 < n
      · have h2 : i - 1 ≤ j ∧ j + 1 < n := by omega
        rw [if_pos hj, if_pos h2, List.getElem?_set_ne (by omega)]
      · rw [if_neg hj]
        by_cases hj2 : j = i - 1
        · subst hj2
          have h2 : i - 1 ≤ i - 1 ∧ i - 1 + 1 < n := by omega
          rw [if_pos h2]
          have e1 : i - 1 + 1 = i := by omega
          rw [e1, List.getElem?_set_self (by omega), List.getElem?_eq_getElem hic]
        · have h2 : ¬ (i - 1 ≤ j ∧ j + 1 < n) := by omega
          rw [if_neg h2, List.getElem?_set_ne (by omega)]

/-- Pointwise description of removing position `i` from a list. -/
theorem getElem?_take_append_drop (xs : List Ptr) (i j : Nat) :
    (xs.take i ++ xs.drop (i + 1))[j]? = if j < i then xs[j]? else xs[j + 1]? := by
  by_cases hj : j < i
  · rw [if_pos hj]
    by_cases hx : i ≤ xs.length
    · rw [List.getElem?_append_left (by simp; omega), List.getElem?_take_of_lt hj]
    · have e1 : xs.take i = xs := List.take_of_length_le (by omega)
      have e2 : xs.drop (i + 1) = [] := List.drop_of_length_le (by omega)
      rw [e1, e2, List.append_nil]
  · rw [if_neg hj]
    by_cases hx : i ≤ xs.length
    · rw [List.getElem?_append_right (by simp; omega), List.getElem?_drop]
      have e1 : (xs.take i).length = i := by simp; omega
      rw [e1]
      congr 1
      omega
    · have e1 : xs.take i = xs := List.take_of_length_le (by omega)
      have e2 : xs.drop (i + 1) = [] := List.drop_of_length_le (by omega)
      rw [e1, e2, List.append_nil, List.getElem?_eq_none (by omega),
        List.getElem?_eq_none (by omega)]

/-- C10. On a list whose block covers its `n > 0` occupied slots `xs`, and for
`i < n`, `vlistremove(l, i)` returns `xs[i]` and leaves length `n - 1` with
contents `xs[0..i) ++ xs[i+1..n)`; the capacity is untouched. -/
theorem vlistremove_spec (l : VList) (i : Nat) (hb : l.Backed) (hi : i < l.length) :
    ∃ x l2, vlistremove l i = some (x, l2) ∧ l.elems[i]? = some x ∧
      l2.length = l.length - 1 ∧ l2.alloc = l.alloc ∧
      l2.elems = l.elems.take i ++ l.elems.drop (i + 1) := by
  obtain ⟨al, n, ct⟩ := l
  cases ct with
  | none => simp [VList.Backed] at hb; simp at hi; omega
  | some cs =>
    simp only [VList.Backed, Option.getD_some] at hb
    simp only at hi
    obtain ⟨r, hr, hlen, hget⟩ := vlistremoveLoop_eq n (n - (i + 1)) (i + 1) cs (by omega)
      (by omega) hb rfl
    have hic : i < cs.length := by omega
    refine ⟨cs[i], ⟨al, n - 1, some r⟩, ?_, ?_, rfl, rfl, ?_⟩
    · have hn0 : n ≠ 0 := by omega
      simp [vlistremove, hn0, rd_of_lt cs i hic, hr]
    · simp [VList.elems, List.getElem?_take_of_lt hi, List.getElem?_eq_getElem hic]
    · apply List.ext_getElem?
      intro j
      simp only [VList.elems, Option.getD_some]
      rw [getElem?_take_append_drop]
      by_cases hj : j < n - 1
      · rw [List.getElem?_take_of_lt hj, hget j, Nat.add_sub_cancel]
        by_cases hji : j < i
        · have h2 : ¬ (i ≤ j ∧ j + 1 < n) := by omega
          rw [if_neg h2, if_pos hji, List.getElem?_take_of_lt (by omega)]
        · have h2 : i ≤ j ∧ j + 1 < n := by omega
          rw [if_pos h2, if_neg hji, List.getElem?_take_of_lt (by omega)]
      · have hlen2 : n - 1 ≤ r.length := by omega
        rw [List.getElem?_eq_none (by simp; omega)]
        have hji : ¬ j < i := by omega
        rw [if_neg hji, List.getElem?_eq_none (by simp; omega)]

/-- Witness for C10: removing position 1 of `[10, 20, 30]`. -/
theorem vlistremove_spec_witness :
    (VList.mk 3 3 (some [10, 20, 30])).Backed ∧ 1 < (VList.mk 3 3 (some [10, 20, 30])).length ∧
    ∃ x l2, vlistremove (VList.mk 3 3 (some [10, 20, 30])) 1 = some (x, l2) ∧
      (VList.mk 3 3 (some [10, 20, 30])).elems[1]? = some x ∧
      l2.length = (VList.mk 3 3 (some [10, 20, 30])).length - 1 ∧
      l2.alloc = (VList.mk 3 3 (some [10, 20, 30])).alloc ∧
      l2.elems = (VList.mk 3 3 (some [10, 20, 30])).elems.take 1 ++
        (VList.mk 3 3 (some [10, 20, 30])).elems.drop (1 + 1) :=
  ⟨by decide, by decide, vlistremove_spec _ 1 (by decide) (by decide)⟩

/-! ## Zero scratch slots -/

/-- C19 (the claim fails for `vlistremove`). Removing position 0 of
`[10, 20, 30]` (capacity 7, zero scratch) leaves length 2 and the old last
element 30 in the vacated slot 2. -/
theorem vlistremove_leaves_stale_slot :
    (VList.mk 7 3 (some [10, 20, 30, 0, 0, 0, 0])).WF ∧
    ZeroScratch (VList.mk 7 3 (some [10, 20, 30, 0, 0, 0, 0])) ∧
    vlistremove (VList.mk 7 3 (some [10, 20, 30, 0, 0, 0, 0])) 0
        = some (10, VList.mk 7 2 (some [20, 30, 30, 0, 0, 0, 0])) ∧
    rd (VList.mk 7 2 (some [20, 30, 30, 0, 0, 0, 0])).block 2 = some 30 ∧
    ¬ ZeroScratch (VList.mk 7 2 (some [20, 30, 30, 0, 0, 0, 0])) := by
  decide

/-- C19 (amended). Zero scratch holds for `vlistnew()`.  On consistent storage
with zero scratch it is kept by `vlistexpand`, by `vlistset` with
`index < length` and by every `vlistinsert` with `index ≤ length` that
completes.  `vlistremove` with `index < length` keeps the slots from the old
length on at zero, and the vacated slot at the new length still holds the old
last element. -/
theorem zeroScratch_kept (l : VList) (hwf : l.WF) (hz : ZeroScratch l) :
    ZeroScratch vlistnew ∧
    (∀ m, ∃ l2, vlistexpand l m = some l2 ∧ ZeroScratch l2) ∧
    (∀ i e r l2, i ≤ l.length → vlistinsert l i e = some (r, l2) → ZeroScratch l2) ∧
    (∀ i e, i < l.length → ∃ r l2, vlistset l i e = some (r, l2) ∧ ZeroScratch l2) ∧
    (∀ i, i < l.length → ∃ r l2, vlistremove l i = some (r, l2) ∧
      l2.length = l.length - 1 ∧ l2.alloc = l.alloc ∧
      rd l2.block l2.length = rd l.block (l.length - 1) ∧
      ∀ j < l2.alloc, l.length ≤ j → rd l2.block j = some NULL) := by
  refine ⟨by decide, ?_, ?_, ?_, ?_⟩
  · intro m
    obtain ⟨l2, hrun, _, _, _, _, hz2⟩ := vlistexpand_spec l m hwf
    exact ⟨l2, hrun, hz2 hz⟩
  · intro i e r l2 hi h
    obtain ⟨l1, cs, c1, c2, c3, h1, h2, h3, h4, h5, _, rfl⟩ := vlistinsert_inv h
    obtain ⟨l1b, hrun, hwf1, hlen1, _, _, hz1⟩ := vlistexpand_spec l (i + 1) hwf
    rw [hrun] at h1
    have hEq : l1b = l1 := Option.some.inj h1
    rw [hEq] at hwf1 hlen1 hz1
    have hz1 := hz1 hz
    have hb : l1.block = cs := by simp [VList.block, h2]
    rw [if_neg (by omega)] at h3
    cases h3
    obtain ⟨_, rfl⟩ := wr_some h5
    intro j hj hlj
    simp only at hj hlj
    simp only [rd_eq, VList.block, Option.getD_some]
    rw [List.getElem?_set_ne (by omega)]
    have hzero : ∀ t, l1.length ≤ t → t < l1.alloc → cs[t]? = some NULL := by
      intro t ht1 ht2
      have := hz1 t ht2 ht1
      rwa [rd_eq, hb] at this
    split at h4
    · obtain ⟨_, hget⟩ := vlistinsertLoop_some i _ cs c2 h4
      rw [hget j]
      by_cases hc : i + 1 ≤ j ∧ j ≤ l1.length + 1
      · rw [if_pos hc]
        exact hzero (j - 1) (by omega) (by omega)
      · rw [if_neg hc]
        exact hzero j (by omega) hj
    · cases h4
      exact hzero j (by omega) hj
  · intro i e hi
    obtain ⟨hlen, hblk⟩ := hwf
    have hrun := vlistexpand_noop l l.alloc (le_refl _) (by omega)
    cases hc : l.content with
    | none => simp [hc] at hblk; omega
    | some cs =>
      simp only [hc, Option.getD_some] at hblk
      have hic : i < cs.length := by omega
      refine ⟨cs[i], { l with content := some (cs.set i e), length := l.length + 1 }, ?_, ?_⟩
      · have heq : vlistset l i e = (vlistexpand l l.alloc).bind fun l1 =>
            l1.content.bind fun cs =>
              (if i > l1.length then memset0 cs l1.length (i - l1.length)
                else some cs).bind fun c1 =>
                (rd c1 i).bind fun old =>
                  (wr c1 i e).bind fun c3 =>
                    some (old, { l1 with content := some c3, length := l1.length + 1 }) := by
          unfold vlistset
          cases vlistexpand l l.alloc with
          | none => rfl
          | some l1 =>
            cases hc1 : l1.content with
            | none => simp [hc1]
            | some cs1 =>
              simp only [Option.bind_eq_bind, Option.some_bind, hc1]
              split_ifs <;> rfl
        rw [heq, hrun]
        simp only [Option.some_bind, hc]
        rw [if_neg (by omega)]
        simp only [Option.some_bind, rd_of_lt cs i hic, wr_of_lt cs i e hic]
      · intro j hj hlj
        simp only at hj hlj
        simp only [rd_eq, VList.block, Option.getD_some]
        rw [List.getElem?_set_ne (by omega)]
        have := hz j hj (by omega)
        simpa [rd_eq, VList.block, hc] using this
  · intro i hi
    obtain ⟨hlen, hblk⟩ := hwf
    cases hc : l.content with
    | none => simp [hc] at hblk; omega
    | some cs =>
      simp only [hc, Option.getD_some] at hblk
      obtain ⟨r, hr, hrl, hget⟩ := vlistremoveLoop_eq l.length (l.length - (i + 1)) (i + 1) cs
        (by omega) (by omega) (by omega) rfl
      have hic : i < cs.length := by omega
      refine ⟨cs[i], { l with content := some r, length := l.length - 1 }, ?_, rfl, rfl, ?_, ?_⟩
      · have hn0 : l.length ≠ 0 := by omega
        simp [vlistremove, hn0, hc, rd_of_lt cs i hic, hr]
      · simp only [rd_eq, VList.block, Option.getD_some, hc]
        rw [hget, if_neg (by omega)]
      · intro j hj hlj
        simp only at hj
        simp only [rd_eq, VList.block, Option.getD_some]
        rw [hget, if_neg (by omega)]
        have := hz j hj hlj
        simpa [rd_eq, VList.block, hc] using this

/-- Witness for C19 (amended): the list `[10, 20]` with capacity 7, on which
an insert at index 1 completes. -/
theorem zeroScratch_kept_witness :
    (VList.mk 7 2 (some [10, 20, 0, 0, 0, 0, 0])).WF ∧
    ZeroScratch (VList.mk 7 2 (some [10, 20, 0, 0, 0, 0, 0])) ∧
    vlistinsert (VList.mk 7 2 (some [10, 20, 0, 0, 0, 0, 0])) 1 15
      = some (15, VList.mk 7 3 (some [10, 15, 20, 0, 0, 0, 0])) ∧
    (ZeroScratch vlistnew ∧
    (∀ m, ∃ l2, vlistexpand (VList.mk 7 2 (some [10, 20, 0, 0, 0, 0, 0])) m = some l2 ∧
      ZeroScratch l2) ∧
    (∀ i e r l2, i ≤ (VList.mk 7 2 (some [10, 20, 0, 0, 0, 0, 0])).length →
      vlistinsert (VList.mk 7 2 (some [10, 20, 0, 0, 0, 0, 0])) i e = some (r, l2) →
      ZeroScratch l2) ∧
    (∀ i e, i < (VList.mk 7 2 (some [10, 20, 0, 0, 0, 0, 0])).length →
      ∃ r l2, vlistset (VList.mk 7 2 (some [10, 20, 0, 0, 0, 0, 0])) i e = some (r, l2) ∧
        ZeroScratch l2) ∧
    (∀ i, i < (VList.mk 7 2 (some [10, 20, 0, 0, 0, 0, 0])).length →
      ∃ r l2, vlistremove (VList.mk 7 2 (some [10, 20, 0, 0, 0, 0, 0])) i = some (r, l2) ∧
        l2.length = (VList.mk 7 2 (some [10, 20, 0, 0, 0, 0, 0])).length - 1 ∧
        l2.alloc = (VList.mk 7 2 (some [10, 20, 0, 0, 0, 0, 0])).alloc ∧
        rd l2.block l2.length
          = rd (VList.mk 7 2 (some [10, 20, 0, 0, 0, 0, 0])).block
              ((VList.mk 7 2 (some [10, 20, 0, 0, 0, 0, 0])).length - 1) ∧
        ∀ j < l2.alloc, (VList.mk 7 2 (some [10, 20, 0, 0, 0, 0, 0])).length ≤ j →
          rd l2.block j = some NULL)) :=
  ⟨by decide, by decide, by decide, zeroScratch_kept _ (by decide) (by decide)⟩

/-! ## The byte buffer -/

theorem take_set_self (xs : List Nat) (n v : Nat) : (xs.set n v).take n = xs.take n := by
  apply List.ext_getElem?
  intro j
  simp only [List.getElem?_take]
  split
  · rw [List.getElem?_set_ne (by omega)]
  · rfl

/-- On a valid non-fixed buffer `vsexpand` returns: the state stays valid, the
length and bytes are kept, the capacity covers the request, and a block exists
whenever the request is positive. -/
theorem vsexpand_spec (vs : VString) (need : Nat) (hv : vs.Valid) (hx : vs.nonextendible = 0) :
    ∃ vs1, vsexpand vs need = some vs1 ∧ vs1.Valid ∧ vs1.nonextendible = 0 ∧
      vs1.length = vs.length ∧ vs1.bytes = vs.bytes ∧ need ≤ vs1.alloc ∧
      (0 < need → ∃ cs, vs1.content = some cs) := by
  obtain ⟨nx, al, n, ct⟩ := vs
  simp only at hx
  subst hx
  obtain ⟨hlen, hblk⟩ := hv
  simp only at hlen hblk
  have hmono := vlistexpandLoop_mono need need al
  have hge := vlistexpandLoop_ge need need al (by omega)
  by_cases hcap : al ≥ vlistexpandLoop need need al
  · refine ⟨⟨0, al, n, ct⟩, ?_, ⟨hlen, hblk⟩, rfl, rfl, rfl, by simp only; omega, ?_⟩
    · simp only [vsexpand, ne_eq, not_true_eq_false, if_false]
      rw [if_pos hcap]
    · intro hpos
      cases ct with
      | none => simp only at hblk; omega
      | some cs => exact ⟨cs, rfl⟩
  · generalize hN : vlistexpandLoop need need al = N at hcap hmono hge
    by_cases hcopy : al > 0 ∧ n > 0
    · cases ct with
      | none => simp only at hblk; omega
      | some cs =>
        simp only at hblk
        refine ⟨⟨0, N, n, some ((([] : List Nat) ++ cs.take n ++
          (List.replicate (N + 1) 0).drop (0 + n)).set n 0)⟩, ?_, ?_, rfl, rfl, ?_, hge, ?_⟩
        · simp only [vsexpand, ne_eq, not_true_eq_false, if_false, hN, if_neg hcap, if_pos hcopy,
            memcpyAt]
          rw [if_pos ⟨by omega, by simp; omega⟩]
          simp only [List.take_zero, Option.some_bind]
          rw [wr_of_lt _ _ _ (by simp; omega)]
          rfl
        · refine ⟨by simp only; omega, ?_⟩
          simp only [List.nil_append, List.length_set, List.length_append, List.length_take,
            List.length_drop, List.length_replicate]
          omega
        · simp only [VString.bytes, Option.getD_some, take_set_self, List.nil_append]
          rw [List.take_append_of_le_length (by simp; omega), List.take_take]
          simp
        · intro _; exact ⟨_, rfl⟩
    · have hn0 : n = 0 := by omega
      subst hn0
      refine ⟨⟨0, N, 0, some ((List.replicate (N + 1) 0).set 0 0)⟩, ?_, ?_, rfl, rfl, ?_, hge,
        ?_⟩
      · simp only [vsexpand, ne_eq, not_true_eq_false, if_false, hN, if_neg hcap, if_neg hcopy,
          Option.some_bind]
        rw [wr_of_lt _ _ _ (by simp)]
        rfl
      · exact ⟨by simp, by simp⟩
      · simp [VString.bytes]
      · intro _; exact ⟨_, rfl⟩

/-- Appending `n > 0` bytes (`n` representable as `unsigned`, within the block
`data`) to a valid non-fixed buffer completes: the bytes are the old bytes
followed by `data[0..n)`, the length grows by `n`, the state stays valid and a
terminator follows the bytes. -/
theorem vsappendn_pos (vs : VString) (data : List Nat) (n : Nat) (hv : vs.Valid)
    (hx : vs.nonextendible = 0) (hn : 0 < n) (hu : n < UINT_RANGE) (hd : n ≤ data.length) :
    ∃ vs2, vsappendn vs data n = some vs2 ∧ vs2.Valid ∧ vs2.nonextendible = 0 ∧
      vs2.length = vs.length + n ∧ vs2.bytes = vs.bytes ++ data.take n ∧
      vs.length + n ≤ vs2.alloc ∧
      rd (vs2.content.getD []) vs2.length = some 0 := by
  obtain ⟨vs1, hrun, hv1, hx1, hlen1, hbytes1, hcap1, hct1⟩ :=
    vsexpand_spec vs (vs.length + n) hv hx
  obtain ⟨cs, hcs⟩ := hct1 (by omega)
  obtain ⟨hl1, hb1⟩ := hv1
  rw [hcs] at hb1
  simp only at hb1
  have hmod : n % UINT_RANGE = n := Nat.mod_eq_of_lt hu
  have hne : n ≠ 0 := by omega
  refine ⟨{ vs1 with content := some ((cs.take vs1.length ++ data.take n ++
      cs.drop (vs1.length + n)).set (vs1.length + n) 0), length := vs1.length + n }, ?_, ?_, hx1,
    by simp only; omega, ?_, by simp only; omega, ?_⟩
  · simp only [vsappendn, hmod, if_neg hne, Option.bind_eq_bind, Option.some_bind, hx, ne_eq,
      not_true_eq_false, if_false, hrun, hcs, memcpyAt]
    rw [if_pos ⟨hd, by omega⟩]
    simp only [Option.map_some', Option.some_bind, hx1, if_true]
    rw [wr_of_lt _ _ _ (by simp; omega)]
    rfl
  · refine ⟨by simp only; omega, ?_⟩
    simp only [List.length_set, List.length_append, List.length_take, List.length_drop]
    omega
  · have hb2 : cs.take vs1.length = vs.bytes := by
      rw [← hbytes1]; simp [VString.bytes, hcs]
    rw [← hb2]
    simp only [VString.bytes, Option.getD_some, take_set_self]
    have h1 : (cs.take vs1.length ++ data.take n).length = vs1.length + n := by
      simp only [List.length_append, List.length_take]; omega
    rw [List.take_left' h1]
  · simp only [Option.getD_some, rd_eq]
    rw [List.getElem?_set_self (by
      simp only [List.length_append, List.length_take, List.length_drop]; omega)]

/-- C15 (the claim fails for sizes from `2^32` on). A buffer of length `2^32`
with a block behind it: the size reaches `vssetcontents` through its `unsigned`
parameter as 0, so the reinstalled buffer has length 0. -/
theorem vssetcontents_truncates_size :
    (VString.mk 0 4294967296 4294967296 (some (List.replicate 4294967297 0))).content ≠ none ∧
    (vssetcontents (vsextract (VString.mk 0 4294967296 4294967296
        (some (List.replicate 4294967297 0)))).2
      (vsextract (VString.mk 0 4294967296 4294967296 (some (List.replicate 4294967297 0)))).1
      (VString.mk 0 4294967296 4294967296 (some (List.replicate 4294967297 0))).length).length
      = 0 ∧
    (VString.mk 0 4294967296 4294967296 (some (List.replicate 4294967297 0))).length
      = 4294967296 := by
  have key : ∀ blk : List Nat,
      (vssetcontents (vsextract (VString.mk 0 4294967296 4294967296 (some blk))).2
        (vsextract (VString.mk 0 4294967296 4294967296 (some blk))).1
        (VString.mk 0 4294967296 4294967296 (some blk)).length).length = 0 := by
    intro blk
    simp [vssetcontents, UINT_RANGE]
  exact ⟨fun h => Option.noConfusion h, key _, rfl⟩

/-- C15 (amended). For a buffer with a block and a length `n < 2^32` (the range
of the `unsigned` size parameter), `vsextract` hands out the block, and
`vssetcontents` with that block and `n` gives a buffer of length `n` whose bytes
`[0, n)` are the original ones. -/
theorem vsextract_vssetcontents_roundtrip (vs : VString) (cs : List Nat)
    (hc : vs.content = some cs) (hn : vs.length < UINT_RANGE) :
    (vsextract vs).1 = cs ∧
    (vssetcontents (vsextract vs).2 (vsextract vs).1 vs.length).length = vs.length ∧
    (vssetcontents (vsextract vs).2 (vsextract vs).1 vs.length).bytes = vs.bytes := by
  have hx : (vsextract vs).1 = cs := by simp [vsextract, hc]
  refine ⟨hx, ?_, ?_⟩
  · simp [vssetcontents, Nat.mod_eq_of_lt hn]
  · simp [vssetcontents, VString.bytes, Nat.mod_eq_of_lt hn, hx, hc]

/-- Witness for C15 (amended): the buffer "abcd" with capacity 7. -/
theorem vsextract_vssetcontents_roundtrip_witness :
    (VString.mk 0 7 4 (some [97, 98, 99, 100, 0, 0, 0, 0])).content
      = some [97, 98, 99, 100, 0, 0, 0, 0] ∧
    (VString.mk 0 7 4 (some [97, 98, 99, 100, 0, 0, 0, 0])).length < UINT_RANGE ∧
    (vsextract (VString.mk 0 7 4 (some [97, 98, 99, 100, 0, 0, 0, 0]))).1
      = [97, 98, 99, 100, 0, 0, 0, 0] ∧
    (vssetcontents (vsextract (VString.mk 0 7 4 (some [97, 98, 99, 100, 0, 0, 0, 0]))).2
      (vsextract (VString.mk 0 7 4 (some [97, 98, 99, 100, 0, 0, 0, 0]))).1
      (VString.mk 0 7 4 (some [97, 98, 99, 100, 0, 0, 0, 0])).length).length
      = (VString.mk 0 7 4 (some [97, 98, 99, 100, 0, 0, 0, 0])).length ∧
    (vssetcontents (vsextract (VString.mk 0 7 4 (some [97, 98, 99, 100, 0, 0, 0, 0]))).2
      (vsextract (VString.mk 0 7 4 (some [97, 98, 99, 100, 0, 0, 0, 0]))).1
      (VString.mk 0 7 4 (some [97, 98, 99, 100, 0, 0, 0, 0])).length).bytes
      = (VString.mk 0 7 4 (some [97, 98, 99, 100, 0, 0, 0, 0])).bytes :=
  ⟨rfl, by decide, vsextract_vssetcontents_roundtrip _ _ rfl (by decide)⟩

/-- C16 (the claim fails for a fixed-capacity buffer). After
`vssetcontents(vs, "abcd", 4)` the buffer is fixed-capacity; `vsextract` clears
block, length and capacity but leaves the flag set, so the state is not the one
of `vsnew()` and appending one byte fails the assertion `alloc >= need`. -/
theorem vsextract_keeps_fixed_flag :
    vssetcontents vsnew [97, 98, 99, 100] 4 = VString.mk 1 4 4 (some [97, 98, 99, 100]) ∧
    (vsextract (VString.mk 1 4 4 (some [97, 98, 99, 100]))).1 = [97, 98, 99, 100] ∧
    (vsextract (VString.mk 1 4 4 (some [97, 98, 99, 100]))).2 = VString.mk 1 0 0 none ∧
    (vsextract (VString.mk 1 4 4 (some [97, 98, 99, 100]))).2 ≠ vsnew ∧
    vsappendn (vsextract (VString.mk 1 4 4 (some [97, 98, 99, 100]))).2 [120, 0] 1 = none := by
  decide

/-- C16 (amended). `vsextract` returns the block of the buffer, or a fresh
one-byte zero block when there was none, and leaves length 0, capacity 0 and no
block, with the fixed-capacity flag as it was.  When the buffer was not
fixed-capacity this is the state of `vsnew()`, and a following append of
`n ≥ 1` bytes completes by growing. -/
theorem vsextract_spec (vs : VString) :
    (vsextract vs).1 = (match vs.content with | some cs => cs | none => [0]) ∧
    (vsextract vs).2
      = { nonextendible := vs.nonextendible, alloc := 0, length := 0, content := none } ∧
    (vs.nonextendible = 0 → (vsextract vs).2 = vsnew ∧
      ∀ (data : List Nat) (n : Nat), 0 < n → n < UINT_RANGE → n ≤ data.length →
        ∃ vs2, vsappendn (vsextract vs).2 data n = some vs2 ∧ vs2.length = n ∧
          vs2.bytes = data.take n ∧ n ≤ vs2.alloc ∧
          rd (vs2.content.getD []) n = some 0) := by
  have h2 : (vsextract vs).2
      = { nonextendible := vs.nonextendible, alloc := 0, length := 0, content := none } := by
    cases hc : vs.content <;> simp [vsextract, hc]
  refine ⟨?_, h2, ?_⟩
  · cases hc : vs.content <;> simp [vsextract, hc]
  · intro hx
    have h3 : (vsextract vs).2 = vsnew := by rw [h2, hx]; rfl
    refine ⟨h3, ?_⟩
    intro data n hn hu hd
    rw [h3]
    obtain ⟨vs2, hrun, _, _, hlen, hbytes, hcap, hterm⟩ :=
      vsappendn_pos vsnew data n ⟨le_refl _, rfl⟩ rfl hn hu hd
    have hl0 : vsnew.length = 0 := rfl
    have hb0 : vsnew.bytes = [] := rfl
    rw [hl0, Nat.zero_add] at hlen hcap
    rw [hb0, List.nil_append] at hbytes
    rw [hlen] at hterm
    exact ⟨vs2, hrun, hlen, hbytes, hcap, hterm⟩

/-- Witness for C16 (amended): extracting from the non-fixed buffer "ab". -/
theorem vsextract_spec_witness :
    (VString.mk 0 3 2 (some [97, 98, 0, 0])).nonextendible = 0 ∧
    (vsextract (VString.mk 0 3 2 (some [97, 98, 0, 0]))).1 = [97, 98, 0, 0] ∧
    (vsextract (VString.mk 0 3 2 (some [97, 98, 0, 0]))).2 = vsnew ∧
    ∃ vs2, vsappendn (vsextract (VString.mk 0 3 2 (some [97, 98, 0, 0]))).2 [120, 121, 0] 2
        = some vs2 ∧ vs2.length = 2 ∧ vs2.bytes = [120, 121].take 2 ∧ 2 ≤ vs2.alloc ∧
      rd (vs2.content.getD []) 2 = some 0 :=
  ⟨rfl, (vsextract_spec (VString.mk 0 3 2 (some [97, 98, 0, 0]))).1,
    ((vsextract_spec (VString.mk 0 3 2 (some [97, 98, 0, 0]))).2.2 rfl).1,
    ((vsextract_spec (VString.mk 0 3 2 (some [97, 98, 0, 0]))).2.2 rfl).2 [120, 121, 0] 2
      (by decide) (by decide) (by decide)⟩

/-! ## The comparator contract -/

theorem KeyOrder.pos_iff {κ : Type} [LinearOrder κ] {cmp : Ptr → Ptr → Int} {gk : Ptr → Ptr}
    {kval : Ptr → κ} (h : KeyOrder cmp gk kval) (k e : Ptr) :
    0 < cmp k e ↔ kval (gk e) < kval k := by
  obtain ⟨h1, h2⟩ := h k e
  constructor
  · intro hp
    rcases lt_trichotomy (kval k) (kval (gk e)) with hlt | heq | hgt
    · have := h1.mpr hlt; omega
    · have := h2.mpr heq; omega
    · exact hgt
  · intro hgt
    rcases lt_trichotomy (cmp k e) 0 with hlt | heq | hp
    · exact absurd (h1.mp hlt) (not_lt.mpr hgt.le)
    · exact absurd (h2.mp heq) (ne_of_gt hgt)
    · exact hp

theorem KeyOrder.nonpos_iff {κ : Type} [LinearOrder κ] {cmp : Ptr → Ptr → Int} {gk : Ptr → Ptr}
    {kval : Ptr → κ} (h : KeyOrder cmp gk kval) (k e : Ptr) :
    cmp k e ≤ 0 ↔ kval k ≤ kval (gk e) := by
  rw [← not_lt, h.pos_iff, not_lt]

/-! ## The binary search of vsortindex -/

/-- Loop invariant of the binary search, over a block `cs` whose first `n` slots
are sorted by key: everything left of `L` is below the key, everything from `R`
on is at or above it, and `found` is 1 exactly when slot `R` matches the key.
The loop ends by its test, with `L = R`. -/
theorem vsortindexLoop_spec {κ : Type} [LinearOrder κ] (cmp : Ptr → Ptr → Int) (gk : Ptr → Ptr)
    (kval : Ptr → κ) (hord : KeyOrder cmp gk kval) (key : Ptr) (cs : List Ptr) (n : Nat)
    (hn : n ≤ cs.length)
    (hsort : ∀ i j a b, i < j → j < n → cs[i]? = some a → cs[j]? = some b →
      kval (gk a) ≤ kval (gk b)) :
    ∀ (fuel L R : Nat) (found : Int), L ≤ R → R ≤ n → R - L ≤ fuel →
      (∀ j e, j < L → cs[j]? = some e → kval (gk e) < kval key) →
      (∀ j e, R ≤ j → j < n → cs[j]? = some e → kval key ≤ kval (gk e)) →
      ((found = 1 ∧ ∃ e, R < n ∧ cs[R]? = some e ∧ kval key = kval (gk e)) ∨
        (found = 0 ∧ ∀ e, R < n → cs[R]? = some e → kval key ≠ kval (gk e))) →
      ∃ P f, vsortindexLoop cmp key cs fuel L R found = some (P, f) ∧ P ≤ n ∧
        (∀ j e, j < P → cs[j]? = some e → kval (gk e) < kval key) ∧
        (∀ j e, P ≤ j → j < n → cs[j]? = some e → kval key ≤ kval (gk e)) ∧
        ((f = 1 ∧ ∃ e, P < n ∧ cs[P]? = some e ∧ kval key = kval (gk e)) ∨
          (f = 0 ∧ ∀ e, P < n → cs[P]? = some e → kval key ≠ kval (gk e))) := by
  intro fuel
  induction fuel with
  | zero =>
    intro L R found hLR hRn hfuel hlo hhi hf
    have hEq : L = R := by omega
    subst hEq
    exact ⟨L, found, by simp [vsortindexLoop], hRn, hlo, hhi, hf⟩
  | succ k ih =>
    intro L R found hLR hRn hfuel hlo hhi hf
    by_cases hlt : L < R
    · have hm1 : L ≤ (L + R) / 2 := by omega
      have hm2 : (L + R) / 2 < R := by omega
      have hmc : (L + R) / 2 < cs.length := by omega
      have hget : cs[(L + R) / 2]? = some cs[(L + R) / 2] := List.getElem?_eq_getElem hmc
      simp only [vsortindexLoop, if_pos hlt, rd_of_lt cs _ hmc, Option.some_bind]
      by_cases hd : cmp key cs[(L + R) / 2] > 0
      · have hne : cmp key cs[(L + R) / 2] ≠ 0 := by omega
        rw [if_pos hd, if_neg hne]
        have hbelow := (hord.pos_iff key _).mp hd
        refine ih ((L + R) / 2 + 1) R found (by omega) hRn (by omega) ?_ hhi hf
        intro j e hj he
        rcases Nat.lt_or_ge j ((L + R) / 2) with hjm | hjm
        · exact lt_of_le_of_lt (hsort j _ e _ hjm (by omega) he hget) hbelow
        · have hjeq : j = (L + R) / 2 := by omega
          subst hjeq
          rw [hget] at he
          cases he
          exact hbelow
      · rw [if_neg hd]
        have hle := (hord.nonpos_iff key _).mp (not_lt.mp hd)
        refine ih L ((L + R) / 2) _ hm1 (by omega) (by omega) hlo ?_ ?_
        · intro j e hj hjn he
          rcases Nat.lt_or_ge ((L + R) / 2) j with hjm | hjm
          · exact le_trans hle (hsort _ j _ e hjm hjn hget he)
          · have hjeq : j = (L + R) / 2 := by omega
            subst hjeq
            rw [hget] at he
            cases he
            exact hle
        · by_cases hz : cmp key cs[(L + R) / 2] = 0
          · left
            rw [if_pos hz]
            exact ⟨rfl, _, by omega, hget, ((hord key _).2).mp hz⟩
          · right
            rw [if_neg hz]
            have hstrict : kval key < kval (gk cs[(L + R) / 2]) :=
              lt_of_le_of_ne hle (fun h => hz (((hord key _).2).mpr h))
            constructor
            · rcases hf with ⟨_, e, hR, he, hke⟩ | ⟨h0, _⟩
              · have := hsort _ R _ e hm2 hR hget he
                rw [← hke] at this
                exact absurd hstrict (not_lt.mpr this)
              · exact h0
            · intro e _ he
              rw [hget] at he
              cases he
              exact ne_of_lt hstrict
    · have hEq : L = R := by omega
      subst hEq
      exact ⟨L, found, by simp [vsortindexLoop], hRn, hlo, hhi, hf⟩

/-- Sortedness by the comparator, read through the key order: keys of the
occupied prefix are non-decreasing. -/
theorem SortedAsc.keys_le {κ : Type} [LinearOrder κ] {sl : VSort} {kval : Ptr → κ}
    (hord : KeyOrder sl.compare sl.getkey kval) (hs : SortedAsc sl) :
    ∀ (i j : Nat) (a b : Ptr), i < j → sl.table.elems[i]? = some a →
      sl.table.elems[j]? = some b → kval (sl.getkey a) ≤ kval (sl.getkey b) := by
  intro i j a b hij ha hb
  obtain ⟨hi, rfl⟩ := List.getElem?_eq_some.mp ha
  obtain ⟨hj, rfl⟩ := List.getElem?_eq_some.mp hb
  exact (hord.nonpos_iff _ _).mp (List.pairwise_iff_getElem.mp hs i j hi hj hij)

/-- A slot of the occupied prefix is a slot of the block. -/
theorem elems_getElem? (l : VList) (cs : List Ptr) (hc : l.content = some cs) (j : Nat) :
    l.elems[j]? = if j < l.length then cs[j]? else none := by
  simp [VList.elems, hc, List.getElem?_take]

/-- What `vsortindex` computes on a sorted table: with `P` the number of
elements below the key, the flag is 1 exactly when slot `P` matches the key, and
the index written is `P`, except that it is `P + 1` on a miss in a non-empty
table. -/
theorem vsortindex_sorted {κ : Type} [LinearOrder κ] (sl : VSort) (kval : Ptr → κ)
    (hord : KeyOrder sl.compare sl.getkey kval) (hb : sl.table.Backed) (hs : SortedAsc sl)
    (key : Ptr) :
    ∃ P f, vsortindex sl key
        = some (f, if f = 0 ∧ sl.table.length ≠ 0 then P + 1 else P) ∧
      P ≤ sl.table.length ∧
      (∀ j e, j < P → sl.table.elems[j]? = some e → 0 < sl.compare key e) ∧
      (∀ j e, P ≤ j → sl.table.elems[j]? = some e → sl.compare key e ≤ 0) ∧
      ((f = 1 ∧ ∃ e, sl.table.elems[P]? = some e ∧ sl.compare key e = 0) ∨
        (f = 0 ∧ ∀ e ∈ sl.table.elems, sl.compare key e ≠ 0)) := by
  by_cases hn0 : sl.table.length = 0
  · have hel : sl.table.elems = [] := by simp [VList.elems, hn0]
    refine ⟨0, 0, ?_, by omega, ?_, ?_, Or.inr ⟨rfl, ?_⟩⟩
    · simp [vsortindex, vlistlength, hn0]
    · intro j e hj; omega
    · intro j e _ he; simp [hel] at he
    · intro e he; simp [hel] at he
  · cases hc : sl.table.content with
    | none => simp [VList.Backed, hc] at hb; omega
    | some cs =>
      have hbl : sl.table.length ≤ cs.length := by simpa [VList.Backed, hc] using hb
      have hkeys := hs.keys_le hord
      have hsort : ∀ i j a b, i < j → j < sl.table.length → cs[i]? = some a → cs[j]? = some b →
          kval (sl.getkey a) ≤ kval (sl.getkey b) := by
        intro i j a b hij hj ha hb2
        refine hkeys i j a b hij ?_ ?_
        · rw [elems_getElem? _ cs hc, if_pos (by omega)]; exact ha
        · rw [elems_getElem? _ cs hc, if_pos hj]; exact hb2
      obtain ⟨P, f, hrun, hP, hlo, hhi, hf⟩ :=
        vsortindexLoop_spec sl.compare sl.getkey kval hord key cs sl.table.length hbl hsort
          sl.table.length 0 sl.table.length 0 (by omega) (le_refl _) (by omega)
          (by intro j e hj; omega) (by intro j e h1 h2; omega)
          (Or.inr ⟨rfl, by intro e h; omega⟩)
      have hlo2 : ∀ j e, j < P → sl.table.elems[j]? = some e → 0 < sl.compare key e := by
        intro j e hj he
        rw [elems_getElem? _ cs hc, if_pos (by omega)] at he
        exact (hord.pos_iff key e).mpr (hlo j e hj he)
      have hhi2 : ∀ j e, P ≤ j → sl.table.elems[j]? = some e → sl.compare key e ≤ 0 := by
        intro j e hj he
        rw [elems_getElem? _ cs hc] at he
        by_cases hjn : j < sl.table.length
        · rw [if_pos hjn] at he
          exact (hord.nonpos_iff key e).mpr (hhi j e hj hjn he)
        · rw [if_neg hjn] at he; cases he
      refine ⟨P, f, ?_, hP, hlo2, hhi2, ?_⟩
      · simp only [vsortindex, vlistlength, if_neg hn0, hc, Option.some_bind, hrun, Option.map_some']
        by_cases hf0 : f = 0
        · simp [hf0, hn0]
        · simp [hf0]
      · rcases hf with ⟨h1, e, hPn, he, hke⟩ | ⟨h0, hno⟩
        · left
          refine ⟨h1, e, ?_, ((hord key e).2).mpr hke⟩
          rw [elems_getElem? _ cs hc, if_pos hPn]; exact he
        · right
          refine ⟨h0, ?_⟩
          intro e hmem hz
          obtain ⟨j, hj⟩ := List.mem_iff_getElem?.mp hmem
          have hjn : j < sl.table.length := by
            by_contra hcon
            rw [elems_getElem? _ cs hc, if_neg hcon] at hj; cases hj
          rcases Nat.lt_or_ge j P with hjP | hjP
          · have := hlo2 j e hjP hj; omega
          · have hPn : P < sl.table.length := by omega
            have hPc : P < cs.length := by omega
            have hgP : cs[P]? = some cs[P] := List.getElem?_eq_getElem hPc
            have hke : kval key = kval (sl.getkey e) := ((hord key e).2).mp hz
            have h1 : kval key ≤ kval (sl.getkey cs[P]) := hhi P _ (le_refl _) hPn hgP
            have hj2 : cs[j]? = some e := by
              rw [elems_getElem? _ cs hc, if_pos hjn] at hj; exact hj
            have h2 : kval (sl.getkey cs[P]) ≤ kval key := by
              rcases Nat.lt_or_ge P j with hlt | hge
              · rw [hke]; exact hsort P j _ e hlt hjn hgP hj2
              · have hEq : j = P := by omega
                subst hEq
                rw [hgP] at hj2; cases hj2
                exact le_of_eq hke.symm
            exact hno _ hPn hgP (le_antisymm h1 h2)

/-- Reading an occupied slot with `vlistget`. -/
theorem vlistget_of_elems (l : VList) (i : Nat) (e : Ptr) (h : l.elems[i]? = some e) :
    vlistget l i = some e := by
  cases hc : l.content with
  | none => simp [VList.elems, hc] at h
  | some cs =>
    rw [elems_getElem? l cs hc] at h
    by_cases hi : i < l.length
    · rw [if_pos hi] at h
      have hn0 : l.length ≠ 0 := by omega
      simp [vlistget, hn0, hi, hc, rd_eq, h]
    · rw [if_neg hi] at h; cases h

/-- The sample comparator `cmpInt` with the identity key extractor meets the
comparator contract over the natural numbers. -/
theorem keyOrder_cmpInt : KeyOrder cmpInt id (fun k : Ptr => (k : Nat)) := by
  intro k e
  exact ⟨by simp [cmpInt, sub_neg], by simp [cmpInt, sub_eq_zero]⟩

/-! ## Claims on the sorted table -/

/-- C5. On a sorted table, `vsortindex` returns 1 exactly when some element
compares equal to the key, and then the index written is the position of the
leftmost such element, inside the occupied prefix. -/
theorem vsortindex_found_iff_leftmost {κ : Type} [LinearOrder κ] (sl : VSort) (kval : Ptr → κ)
    (hord : KeyOrder sl.compare sl.getkey kval) (hb : sl.table.Backed) (hs : SortedAsc sl)
    (key : Ptr) :
    ∃ found index, vsortindex sl key = some (found, index) ∧ (found = 1 ∨ found = 0) ∧
      (found = 1 ↔ ∃ e ∈ sl.table.elems, sl.compare key e = 0) ∧
      (found = 1 → index < sl.table.length ∧
        (∃ e, sl.table.elems[index]? = some e ∧ sl.compare key e = 0) ∧
        ∀ j e, j < index → sl.table.elems[j]? = some e → sl.compare key e ≠ 0) := by
  obtain ⟨P, f, hrun, _, hlo, _, hf⟩ := vsortindex_sorted sl kval hord hb hs key
  refine ⟨f, _, hrun, ?_, ?_, ?_⟩
  · rcases hf with ⟨h, _⟩ | ⟨h, _⟩
    · exact Or.inl h
    · exact Or.inr h
  · constructor
    · intro h1
      rcases hf with ⟨_, e, he, hz⟩ | ⟨h0, _⟩
      · exact ⟨e, List.mem_iff_getElem?.mpr ⟨P, he⟩, hz⟩
      · omega
    · rintro ⟨e, hmem, hz⟩
      rcases hf with ⟨h1, _⟩ | ⟨_, hno⟩
      · exact h1
      · exact absurd hz (hno e hmem)
  · intro h1
    have hne : ¬ (f = 0 ∧ sl.table.length ≠ 0) := by omega
    rw [if_neg hne]
    rcases hf with ⟨_, e, he, hz⟩ | ⟨h0, _⟩
    · refine ⟨?_, ⟨e, he, hz⟩, ?_⟩
      · obtain ⟨hlt, _⟩ := List.getElem?_eq_some.mp he
        have : sl.table.elems.length ≤ sl.table.length := by
          simp only [VList.elems, List.length_take]; omega
        omega
      · intro j e2 hj he2
        have := hlo j e2 hj he2
        omega
    · omega

/-- Witness for C5: looking up key 3 in the sorted table `[1, 3, 5]`. -/
theorem vsortindex_found_iff_leftmost_witness :
    KeyOrder (intTable (VList.mk 3 3 (some [1, 3, 5]))).compare
      (intTable (VList.mk 3 3 (some [1, 3, 5]))).getkey (fun k : Ptr => (k : Nat)) ∧
    (intTable (VList.mk 3 3 (some [1, 3, 5]))).table.Backed ∧
    SortedAsc (intTable (VList.mk 3 3 (some [1, 3, 5]))) ∧
    ∃ found index, vsortindex (intTable (VList.mk 3 3 (some [1, 3, 5]))) 3 = some (found, index) ∧
      (found = 1 ∨ found = 0) ∧
      (found = 1 ↔ ∃ e ∈ (intTable (VList.mk 3 3 (some [1, 3, 5]))).table.elems,
        (intTable (VList.mk 3 3 (some [1, 3, 5]))).compare 3 e = 0) ∧
      (found = 1 → index < (intTable (VList.mk 3 3 (some [1, 3, 5]))).table.length ∧
        (∃ e, (intTable (VList.mk 3 3 (some [1, 3, 5]))).table.elems[index]? = some e ∧
          (intTable (VList.mk 3 3 (some [1, 3, 5]))).compare 3 e = 0) ∧
        ∀ j e, j < index → (intTable (VList.mk 3 3 (some [1, 3, 5]))).table.elems[j]? = some e →
          (intTable (VList.mk 3 3 (some [1, 3, 5]))).compare 3 e ≠ 0) :=
  ⟨keyOrder_cmpInt, by decide, by decide,
    vsortindex_found_iff_leftmost _ _ keyOrder_cmpInt (by decide) (by decide) 3⟩

/-- C6. On a sorted table, `vsortsearch(key)` returns an element of the table
that compares equal to the key when there is one and `NULL` when there is none.
The function only reads the table: it yields a handle and no new state. -/
theorem vsortsearch_spec {κ : Type} [LinearOrder κ] (sl : VSort) (kval : Ptr → κ)
    (hord : KeyOrder sl.compare sl.getkey kval) (hb : sl.table.Backed) (hs : SortedAsc sl)
    (key : Ptr) :
    ∃ r, vsortsearch sl key = some r ∧
      ((∃ e ∈ sl.table.elems, sl.compare key e = 0) →
        r ∈ sl.table.elems ∧ sl.compare key r = 0) ∧
      ((∀ e ∈ sl.table.elems, sl.compare key e ≠ 0) → r = NULL) := by
  obtain ⟨P, f, hrun, _, _, _, hf⟩ := vsortindex_sorted sl kval hord hb hs key
  rcases hf with ⟨h1, e, he, hz⟩ | ⟨h0, hno⟩
  · have hne : ¬ (f = 0 ∧ sl.table.length ≠ 0) := by omega
    rw [if_neg hne] at hrun
    have hf0 : f ≠ 0 := by omega
    refine ⟨e, ?_, ?_, ?_⟩
    · simp [vsortsearch, hrun, hf0, vlistget_of_elems _ P e he]
    · intro _
      exact ⟨List.mem_iff_getElem?.mpr ⟨P, he⟩, hz⟩
    · intro hall
      exact absurd hz (hall e (List.mem_iff_getElem?.mpr ⟨P, he⟩))
  · refine ⟨NULL, ?_, ?_, ?_⟩
    · simp [vsortsearch, hrun, h0]
    · rintro ⟨e, hmem, hz⟩
      exact absurd hz (hno e hmem)
    · intro _; rfl

/-- Witness for C6: searching key 5 in the sorted table `[1, 3, 5]`. -/
theorem vsortsearch_spec_witness :
    KeyOrder (intTable (VList.mk 3 3 (some [1, 3, 5]))).compare
      (intTable (VList.mk 3 3 (some [1, 3, 5]))).getkey (fun k : Ptr => (k : Nat)) ∧
    (intTable (VList.mk 3 3 (some [1, 3, 5]))).table.Backed ∧
    SortedAsc (intTable (VList.mk 3 3 (some [1, 3, 5]))) ∧
    ∃ r, vsortsearch (intTable (VList.mk 3 3 (some [1, 3, 5]))) 5 = some r ∧
      ((∃ e ∈ (intTable (VList.mk 3 3 (some [1, 3, 5]))).table.elems,
          (intTable (VList.mk 3 3 (some [1, 3, 5]))).compare 5 e = 0) →
        r ∈ (intTable (VList.mk 3 3 (some [1, 3, 5]))).table.elems ∧
          (intTable (VList.mk 3 3 (some [1, 3, 5]))).compare 5 r = 0) ∧
      ((∀ e ∈ (intTable (VList.mk 3 3 (some [1, 3, 5]))).table.elems,
          (intTable (VList.mk 3 3 (some [1, 3, 5]))).compare 5 e ≠ 0) → r = NULL) :=
  ⟨keyOrder_cmpInt, by decide, by decide,
    vsortsearch_spec _ _ keyOrder_cmpInt (by decide) (by decide) 5⟩

/-! ## Where the code departs from the claims: evaluations at concrete inputs -/

/-- C1 (the code departs). The table `[5]` is sorted; `vsortinsert` of the
element keyed 1 stores it at index 1 and leaves the backing order `[5, 1]`,
which is not sorted.  Inserting 5, 1, 3 into the empty table leaves the
occupied prefix `[5, 1, 0]`, not `[1, 3, 5]`. -/
theorem vsortinsert_breaks_order :
    (vsortinsert (intTable vlistnew) 5).map (fun r => r.2.table)
        = some (VList.mk 1 1 (some [5])) ∧
    SortedAsc (intTable (VList.mk 1 1 (some [5]))) ∧
    (vsortinsert (intTable (VList.mk 1 1 (some [5]))) 1).map (fun r => r.2.table)
        = some (VList.mk 3 2 (some [5, 1, 0])) ∧
    ¬ SortedAsc (intTable (VList.mk 3 2 (some [5, 1, 0]))) ∧
    ((vsortinsert (intTable vlistnew) 5).bind fun r1 =>
      (vsortinsert r1.2 1).bind fun r2 =>
        (vsortinsert r2.2 3).map fun r3 => r3.2.table.elems) = some [5, 1, 0] := by
  decide

/-- C2 (the code departs). After `vsortinsert` of the element keyed 1 into the
sorted table `[5]`, `vsortsearch(1)` returns the element 5, whose key does not
compare equal to 1; after `vsortinsert` of the element keyed 9 into `[5]`,
`vsortsearch(9)` returns `NULL`. -/
theorem vsortsearch_after_insert_wrong :
    ((vsortinsert (intTable (VList.mk 1 1 (some [5]))) 1).bind fun r => vsortsearch r.2 1)
        = some 5 ∧
    cmpInt (id 1) 5 ≠ 0 ∧
    ((vsortinsert (intTable (VList.mk 1 1 (some [5]))) 9).bind fun r => vsortsearch r.2 9)
        = some NULL := by
  decide

/-- C3 (the code departs). The table holds the element 30 (key 3);
`vsortinsert` of 31 (key 3) returns 30 and stores 31 in its slot, but the length
goes from 1 to 2, beyond the single allocated slot.  With spare capacity the
length goes from 3 to 4 and the zero scratch slot joins the occupied prefix. -/
theorem vsortinsert_replace_grows_length :
    (vsortinsert (tensTable (VList.mk 1 1 (some [30]))) 31).map (fun r => (r.1, r.2.table))
        = some (30, VList.mk 1 2 (some [31])) ∧
    (vsortinsert (tensTable (VList.mk 7 3 (some [10, 30, 50, 0, 0, 0, 0]))) 31).map
        (fun r => (r.1, r.2.table.length, r.2.table.elems))
        = some (30, 4, [10, 31, 50, 0]) := by
  decide

/-- C4 (the code departs). On the sorted table `[5]` the key 1 matches nothing
and no element is smaller, yet `vsortindex` writes index 1; for the key 9 it
writes index 2, beyond the length 1; on `[1, 3, 5]` with key 4 it writes 3 where
two elements are smaller. -/
theorem vsortindex_miss_off_by_one :
    vsortindex (intTable (VList.mk 1 1 (some [5]))) 1 = some (0, 1) ∧
    vsortindex (intTable (VList.mk 1 1 (some [5]))) 9 = some (0, 2) ∧
    vsortindex (intTable (VList.mk 3 3 (some [1, 3, 5]))) 4 = some (0, 3) := by
  decide

/-- C7 (the code departs). After `push(10); push(20)` the list is `[10, 20]` in
a block of 3 slots; `vlistinsert(l, 1, 15)` then starts its shift loop at
`i = length = 2` and writes `content[3]`, outside the block.  With index 0 on a
non-empty list the loop counter steps below zero and the loop runs off the
block, whatever the capacity. -/
theorem vlistinsert_scenario_faults :
    ((vlistpush vlistnew 10).bind fun r => vlistpush r.2 20)
        = some (20, VList.mk 3 2 (some [10, 20, 0])) ∧
    vlistinsert (VList.mk 3 2 (some [10, 20, 0])) 1 15 = none ∧
    vlistinsert (VList.mk 7 2 (some [10, 20, 0, 0, 0, 0, 0])) 0 15 = none ∧
    vlistinsert (VList.mk 3 2 (some [10, 20, 0])) 2 30 = none := by
  decide

/-- C8 (the code departs). `vlistset(l, 0, 99)` on `[10, 20]` (capacity 3)
returns 10 and stores 99 at slot 0, but the length becomes 3. -/
theorem vlistset_inrange_grows_length :
    vlistset (VList.mk 3 2 (some [10, 20, 0])) 0 99
        = some (10, VList.mk 3 3 (some [99, 20, 0])) ∧
    vlistset (VList.mk 2 2 (some [10, 20])) 1 99
        = some (20, VList.mk 2 3 (some [10, 99])) := by
  decide

/-- C9 (the code departs). On the empty list `vlistset(l, 1, 99)` allocates one
slot and then accesses `content[1]`, outside the block.  On a list of length 1
with capacity 3, `vlistset(l, 2, 99)` stores 99 at slot 2 but the length
becomes 2, not 3. -/
theorem vlistset_beyond_length :
    vlistset vlistnew 1 99 = none ∧
    vlistset (VList.mk 3 1 (some [10, 0, 0])) 2 99
        = some (0, VList.mk 3 2 (some [10, 0, 99])) ∧
    vlistset (VList.mk 3 1 (some [10, 0, 0])) 5 99 = none := by
  decide

/-- C11 (the code departs). A list of length 3 with capacity 3: the clone is
expanded to capacity 3, and the third `vlistpush` starts its shift loop at
`i = 2` and writes `content[3]`, outside the block.  The same happens at length
7.  Clones of lengths 0, 1, 2 and 4 come out right. -/
theorem vlistclone_full_capacity_faults :
    vlistclone (VList.mk 3 3 (some [1, 2, 3])) = none ∧
    vlistclone (VList.mk 7 7 (some [1, 2, 3, 4, 5, 6, 7])) = none ∧
    vlistclone vlistnew = some (VList.mk 1 0 (some [0])) ∧
    vlistclone (VList.mk 1 1 (some [9])) = some (VList.mk 1 1 (some [9])) ∧
    vlistclone (VList.mk 3 2 (some [1, 2, 0])) = some (VList.mk 3 2 (some [1, 2, 0])) ∧
    vlistclone (VList.mk 7 4 (some [1, 2, 3, 4, 0, 0, 0]))
        = some (VList.mk 7 4 (some [1, 2, 3, 4, 0, 0, 0])) := by
  decide

/-- C13 (the code departs). From the empty buffer, appending "ab" and then "cd"
with `n = 0` gives "abcd", length 4, and a terminator after it.  Appending the
empty string with `n = 0` to the empty buffer, a valid non-fixed state, does not
complete: nothing is allocated and the terminator is stored through the `NULL`
block. -/
theorem vsappendn_empty_data_faults :
    ((vsappendn vsnew [97, 98, 0] 0).bind fun vs => vsappendn vs [99, 100, 0] 0)
        = some (VString.mk 0 7 4 (some [97, 98, 99, 100, 0, 0, 0, 0])) ∧
    vsnew.Valid ∧ strlen [0] = some 0 ∧
    vsappendn vsnew [0] 0 = none := by
  refine ⟨by decide, ⟨by decide, rfl⟩, by decide, by decide⟩

/-- C14 (the code departs). On the buffer made by `vsnew()`, `vscat(vs, "")`
calls `vsexpand(vs, 0)`, which allocates nothing and leaves the block `NULL`; the
store `content[length] = 0` then goes through `NULL`.  After a first non-empty
append the block exists and an empty append keeps the terminator. -/
theorem vscat_empty_on_new_faults :
    vsexpand vsnew 0 = some vsnew ∧ vsnew.content = none ∧
    vscat vsnew [0] = none ∧
    ((vsappend vsnew 97).bind fun vs => vscat vs [0])
        = some (VString.mk 0 1 1 (some [97, 0])) := by
  decide

/-- C17 (the code departs). On the full list `[10, 20, 30]` (capacity 3),
`vlistset(l, 1, 99)` leaves length 4 with capacity 3, and `vlistinsert(l, 1, 15)`
does not grow the block (`vlistexpand(l, 2)` changes nothing) and reads
`content[3]`, outside it.  `vlistremove` keeps the length within the capacity. -/
theorem length_exceeds_capacity :
    (VList.mk 3 3 (some [10, 20, 30])).WF ∧
    vlistset (VList.mk 3 3 (some [10, 20, 30])) 1 99
        = some (20, VList.mk 3 4 (some [10, 99, 30])) ∧
    ¬ (VList.mk 3 4 (some [10, 99, 30])).length ≤ (VList.mk 3 4 (some [10, 99, 30])).alloc ∧
    vlistexpand (VList.mk 3 3 (some [10, 20, 30])) (1 + 1)
        = some (VList.mk 3 3 (some [10, 20, 30])) ∧
    rd [10, 20, 30] 3 = none ∧
    vlistinsert (VList.mk 3 3 (some [10, 20, 30])) 1 15 = none ∧
    vlistremove (VList.mk 3 3 (some [10, 20, 30])) 1
        = some (20, VList.mk 3 2 (some [10, 30, 30])) := by
  decide

/-- C20 (the code departs). List `[10, 20]` in a block of 3 slots, index 1:
`vlistexpand(l, 2)` leaves the capacity at 3; the first round of the shift loop
(`i = length = 2`) reads slot 2 and writes slot `i + 1 = 3`, which is not below
the capacity, so the checked access fails.  The same happens for a push
(index 2 = length). -/
theorem vlistinsert_access_out_of_block :
    (VList.mk 3 2 (some [10, 20, 0])).WF ∧
    (vlistexpand (VList.mk 3 2 (some [10, 20, 0])) (1 + 1)).map (fun l => l.alloc) = some 3 ∧
    rd [10, 20, 0] 2 = some 0 ∧ wr [10, 20, 0] (2 + 1) 0 = none ∧
    vlistinsertLoop 1 2 [10, 20, 0] = none ∧
    vlistinsert (VList.mk 3 2 (some [10, 20, 0])) 1 15 = none ∧
    vlistinsertLoop 2 2 [10, 20, 0] = none ∧
    vlistpush (VList.mk 3 2 (some [10, 20, 0])) 30 = none := by
  decide

end Vutils
